import Mathlib

/-!
# mailfix: a verification development

Shallow embedding of `mailfix.go` (package `mailfix`) and of the corpus builder
`data/main.go`, and proofs about them.

Conventions of the embedding

* Go `int` values that hold lengths, indices and edit distances are natural
  numbers: every such value in the program is non-negative and bounded by the
  length of an input, so no 64-bit overflow can occur.  The one value that can
  be negative, the result of `strings.LastIndex`, is an `Int`.
* A slice or string access that would panic in Go returns `none`.
* A `for i := lo; i <= hi; i++` loop whose bounds are not changed by its body is
  a monadic left fold over the list `lo, lo+1, …, hi`.
* What a function reads from outside the program (DNS results, the SMTP probe, the
  lines of the input files) is an argument of its model, and what it does to the
  outside (calls, printed lines, written lines) is part of its result.
-/

set_option maxRecDepth 4000

namespace Mailfix

/-! ## Control flow and slices -/

/-- The loop `for i := lo; i <= hi; i++ { st = body st i }`; the body may fail. -/
def forLoop {σ : Type} (lo hi : Nat) (body : σ → Nat → Option σ) (init : σ) : Option σ :=
  (List.range' lo (hi + 1 - lo)).foldlM body init

/-- The assignment `s[i] = v` on a slice: fails when `i` is out of range. -/
def setIdx (s : List Nat) (i v : Nat) : Option (List Nat) :=
  if i < s.length then some (s.set i v) else none

/-! ## `min` and `levenshteinDistance` (mailfix.go, lines 136-166) -/

/-- The function `min` of mailfix.go: `if a < b { return a }; return b`. -/
def min (a b : Nat) : Nat :=
  if a < b then a else b

/-- The body of the inner loop of `levenshteinDistance`, at column index `y`,
for the outer index `x`; the state is `(column, lastkey)`. -/
def innerBody {α : Type} [DecidableEq α] (str1 str2 : List α) (x : Nat)
    (st : List Nat × Nat) (y : Nat) : Option (List Nat × Nat) := do
  let column := st.1
  let lastkey := st.2
  let oldkey ← column[y]?
  let c1 ← str1[y - 1]?
  let c2 ← str2[x - 1]?
  let incr := if c1 ≠ c2 then 1 else 0
  let cy ← column[y]?
  let cy1 ← column[y - 1]?
  let column ← setIdx column y (min (cy + 1) (min (cy1 + 1) (lastkey + incr)))
  pure (column, oldkey)

/-- The body of the outer loop of `levenshteinDistance`, at index `x`. -/
def outerBody {α : Type} [DecidableEq α] (str1 str2 : List α)
    (column : List Nat) (x : Nat) : Option (List Nat) := do
  let column ← setIdx column 0 x
  let lastkey := x - 1
  let st ← forLoop 1 str1.length (innerBody str1 str2 x) (column, lastkey)
  pure st.1

/-- The function `levenshteinDistance(str1, str2 []rune) int`.  The element type
is arbitrary: the code only compares runes for equality. -/
def levenshteinDistance {α : Type} [DecidableEq α] (str1 str2 : List α) : Option Nat := do
  let s1len := str1.length
  let s2len := str2.length
  let column := List.replicate (str1.length + 1) 0
  let column ← forLoop 1 s1len (fun column y => setIdx column y y) column
  let column ← forLoop 1 s2len (outerBody str1 str2) column
  column[s1len]?

/-! ## The reference edit distance -/

/-- One row of the recursive definition: the distance from `x :: a` to each
second argument, given the distances `prev` from `a`. -/
def levRow {α : Type} [DecidableEq α] (x : α) (prev : List α → Nat) : List α → Nat
  | [] => prev [] + 1
  | y :: b =>
    Min.min (prev (y :: b) + 1)
      (Min.min (levRow x prev b + 1) (prev b + if x = y then 0 else 1))

/-- The Levenshtein edit distance by its recursive definition:
`lev [] b = |b|`, `lev a [] = |a|`, and
`lev (x :: a) (y :: b)` is the least of `lev a (y :: b) + 1` (delete `x`),
`lev (x :: a) b + 1` (insert `y`) and `lev a b + (0 if x = y else 1)`
(keep or substitute). -/
def lev {α : Type} [DecidableEq α] : List α → List α → Nat
  | [] => List.length
  | x :: a => levRow x (lev a)

/-! ## Strings

A Go string is modelled by the list of the code points of its UTF-8 text, so the
model covers the inputs that are valid UTF-8.  Lengths and indices are counted
in bytes, as in Go. -/

/-- The number of bytes of the UTF-8 encoding of a rune (`utf8.RuneLen`). -/
def runeLen (c : Char) : Nat :=
  if c.toNat < 0x80 then 1 else if c.toNat < 0x800 then 2 else if c.toNat < 0x10000 then 3 else 4

/-- The builtin `len(s)` of a string: its number of bytes. -/
def len : List Char → Nat
  | [] => 0
  | c :: cs => runeLen c + len cs

/-- The call `strings.LastIndex(s, sep)` for a one-rune separator: the byte
offset of the last occurrence of `sep` in `s`, or `-1`. -/
def LastIndex (sep : Char) : List Char → Int
  | [] => -1
  | c :: cs =>
    if 0 ≤ LastIndex sep cs then (runeLen c : Int) + LastIndex sep cs
    else if c = sep then 0 else -1

/-- The slice `s[:n]`, for a byte offset `n` that falls between two runes. -/
def sliceTo : List Char → Nat → List Char
  | [], _ => []
  | c :: cs, n => if runeLen c ≤ n then c :: sliceTo cs (n - runeLen c) else []

/-- The slice `s[n:]`, for a byte offset `n` that falls between two runes. -/
def sliceFrom : List Char → Nat → List Char
  | [], _ => []
  | c :: cs, n => if n = 0 then c :: cs else sliceFrom cs (n - runeLen c)

/-- Modelled from the spec: the whitespace that step 4 of the normalizer trims is
the class of Go's `unicode.IsSpace` (library code, not part of the repository): tab, LF, VT,
FF, CR, space, U+0085, U+00A0 and the other code points with the White_Space
property. -/
def isSpace (c : Char) : Bool :=
  let n := c.toNat
  n = 0x09 || n = 0x0A || n = 0x0B || n = 0x0C || n = 0x0D || n = 0x20 || n = 0x85 || n = 0xA0 ||
  n = 0x1680 || (0x2000 ≤ n && n ≤ 0x200A) || n = 0x2028 || n = 0x2029 || n = 0x202F ||
  n = 0x205F || n = 0x3000

/-- The call `strings.TrimLeftFunc(s, f)`. -/
def TrimLeftFunc (f : Char → Bool) (s : List Char) : List Char :=
  s.dropWhile f

/-- The call `strings.TrimRightFunc(s, f)`. -/
def TrimRightFunc (f : Char → Bool) (s : List Char) : List Char :=
  (s.reverse.dropWhile f).reverse

/-- The call `strings.TrimSpace(s)`. -/
def TrimSpace (s : List Char) : List Char :=
  TrimRightFunc isSpace (TrimLeftFunc isSpace s)

/-- The call `strings.TrimRight(s, cutset)`. -/
def TrimRight (s cutset : List Char) : List Char :=
  TrimRightFunc (fun c => cutset.contains c) s

/-- The call `strings.TrimLeft(s, cutset)`. -/
def TrimLeft (s cutset : List Char) : List Char :=
  TrimLeftFunc (fun c => cutset.contains c) s

/-! ## Unicode data and normalization forms

`normalizeString` calls `norm.NFD`, `norm.NFC` (golang.org/x/text), `unicode.Mn`
and `unicode.ToLower`, none of which is part of the repository.  Their character tables are
a parameter; the algorithms over the tables are those of the Unicode standard. -/

/-- Modelled from the spec: the character data behind steps 1, 2, 3 and 7 of the
normalizer (spec section 4.1), which the code reads through golang.org/x/text and
package unicode. -/
structure UnicodeData where
  /-- The full canonical decomposition of a code point (the code point itself when it has none) -/
  decomp : Char → List Char
  /-- The canonical combining class -/
  ccc : Char → Nat
  /-- The primary composite of a pair, when there is one -/
  compose : Char → Char → Option Char
  /-- Membership in the category Mn (`unicode.Is(unicode.Mn, r)`) -/
  isMn : Char → Bool
  /-- The lower-case mapping of `unicode.ToLower` on the code points above U+007F -/
  lower : Char → Char

/-- Modelled from the spec: one step of the canonical ordering of step 1 (library
code, not part of the repository): put `c` after the text whose reversal is the second
argument, moving it in front of the trailing marks of a higher class. -/
def insertOrdered (U : UnicodeData) (c : Char) : List Char → List Char
  | [] => [c]
  | d :: rest =>
    if U.ccc c ≠ 0 ∧ U.ccc c < U.ccc d then d :: insertOrdered U c rest else c :: d :: rest

/-- Modelled from the spec: canonical ordering of a decomposed text (the result
is reversed). -/
def canonicalOrder (U : UnicodeData) : List Char → List Char → List Char
  | [], acc => acc
  | c :: cs, acc => canonicalOrder U cs (insertOrdered U c acc)

/-- Modelled from the spec: step 1 of the normalizer, `norm.NFD`: canonical
decomposition followed by canonical ordering. -/
def NFD (U : UnicodeData) (s : List Char) : List Char :=
  (canonicalOrder U (s.flatMap U.decomp) []).reverse

/-- Modelled from the spec: the canonical composition of step 3 (library code,
not part of the repository), over a decomposed text: `done` is the finished text, `starter`
the last starter, `tail` the marks kept after it and `lastClass` the class of the
last rune kept. -/
def composeLoop (U : UnicodeData) :
    List Char → List Char → Char → List Char → Nat → List Char
  | [], done, starter, tail, _ => done ++ starter :: tail
  | ch :: rest, done, starter, tail, lastClass =>
    match U.compose starter ch with
    | some composite =>
      if lastClass < U.ccc ch ∨ lastClass = 0 then
        composeLoop U rest done composite tail lastClass
      else if U.ccc ch = 0 then composeLoop U rest (done ++ starter :: tail) ch [] 0
      else composeLoop U rest done starter (tail ++ [ch]) (U.ccc ch)
    | none =>
      if U.ccc ch = 0 then composeLoop U rest (done ++ starter :: tail) ch [] 0
      else composeLoop U rest done starter (tail ++ [ch]) (U.ccc ch)

/-- Modelled from the spec: step 3 of the normalizer, `norm.NFC`: canonical
decomposition, ordering and composition. -/
def NFC (U : UnicodeData) (s : List Char) : List Char :=
  match NFD U s with
  | [] => []
  | c :: cs => composeLoop U cs [] c [] (if U.ccc c = 0 then 0 else 256)

/-- Modelled from the spec: the rune map of step 7, `unicode.ToLower` (library
code, not part of the repository): an ASCII capital is moved to its small letter, any other
ASCII rune is kept, and the runes above U+007F go through the table. -/
def toLowerRune (U : UnicodeData) (c : Char) : Char :=
  if c.toNat < 0x80 then
    if 0x41 ≤ c.toNat ∧ c.toNat ≤ 0x5A then Char.ofNat (c.toNat + 0x20) else c
  else U.lower c

/-- The call `strings.ToLower(s)`. -/
def ToLower (U : UnicodeData) (s : List Char) : List Char :=
  s.map (toLowerRune U)

/-! ## `normalizeString` (mailfix.go, lines 169-185) -/

/-- The transformer `transform.Chain(norm.NFD, transform.RemoveFunc(isMn), norm.NFC)`
applied to a whole string, as `stringFromReader(transform.NewReader(...))` does. -/
def stripMarks (U : UnicodeData) (str : List Char) : List Char :=
  NFC U ((NFD U str).filter (fun r => !U.isMn r))

/-- The function `normalizeString(str string) string`. -/
def normalizeString (U : UnicodeData) (str : List Char) : List Char :=
  let normalized := stripMarks U str
  let normalized := TrimSpace normalized
  let normalized := TrimRight normalized ['.']
  let normalized := TrimLeft normalized ['.']
  let normalized := ToLower U normalized
  normalized

/-! ## The three patterns (mailfix.go, lines 24-28)

`MatchString` reports whether the text contains a match; `^` and `$` match only
at the two ends of the text, and a class matches one rune. -/

/-- The class `[a-zA-Z0-9!#$%&'*+/=?^_\x60\x7b|\x7d~.-]` of `userRegexp`. -/
def userClass (c : Char) : Bool :=
  let n := c.toNat
  (0x61 ≤ n && n ≤ 0x7A) || (0x41 ≤ n && n ≤ 0x5A) || (0x30 ≤ n && n ≤ 0x39) ||
  "!#$%&\x27*+/=?^_\x60\x7b|\x7d~.-".toList.contains c

/-- The class `\s` of Go regular expressions: `[\t\n\f\r ]`. -/
def reSpace (c : Char) : Bool :=
  c = '\t' || c = '\n' || c = Char.ofNat 0x0C || c = '\r' || c = ' '

/-- The pattern `userRegexp`, "^[a-zA-Z0-9!#$%&'*+/=?^_\x60\x7b|\x7d~.-]+$": the
whole text is one or more runes of the class. -/
def userRegexp (s : List Char) : Bool :=
  !s.isEmpty && s.all userClass

/-- Whether the text contains two dots in a row. -/
def hasDotDot : List Char → Bool
  | c :: d :: rest => (c = '.' && d = '.') || hasDotDot (d :: rest)
  | _ => false

/-- The pattern `userDotRegexp`, "(^[.]\x7b1\x7d)|([.]\x7b1\x7d$)|([.]\x7b2,\x7d)": a dot at
the start, a dot at the end, or two or more dots in a row anywhere. -/
def userDotRegexp (s : List Char) : Bool :=
  s.head? = some '.' || s.getLast? = some '.' || hasDotDot s

/-- The pattern `hostRegexp`, "^[^\\s]+\\.[^\\s]\x7b2,\x7d$": the text splits into one
or more runes outside `\s`, a dot, and two or more runes outside `\s`. -/
def hostRegexp (s : List Char) : Bool :=
  (List.range (s.length + 1)).any fun i =>
    !(s.take i).isEmpty && (s.take i).all (fun c => !reSpace c) &&
      match s.drop i with
      | [] => false
      | d :: q => d = '.' && 2 ≤ q.length && q.all (fun c => !reSpace c)

/-! ## `EmailInfo.ValidateFormat` (mailfix.go, lines 19-22, 42-53 and 78-101) -/

/-- The error values of the package. -/
inductive Error where
  | ErrInvalidUserFormat
  | ErrInvalidHostFormat
  | InvalidDomain
  deriving DecidableEq, Repr

/-- The struct `EmailInfo`. -/
structure EmailInfo where
  ToEmail : List Char
  FromEmail : List Char
  User : List Char
  Host : List Char
  Normalized : List Char
  deriving DecidableEq, Repr

/-- The method `(*EmailInfo).ValidateFormat`: the receiver after the call and the
error returned (`none` for `nil`). -/
def ValidateFormat (U : UnicodeData) (self : EmailInfo) : EmailInfo × Option Error :=
  let self := { self with Normalized := normalizeString U self.ToEmail }
  if len self.Normalized < 6 ∨ len self.Normalized > 254 then
    (self, some Error.ErrInvalidUserFormat)
  else
    let atIdx := LastIndex '@' self.Normalized
    if atIdx ≤ 0 ∨ atIdx > (len self.Normalized : Int) - 4 then
      (self, some Error.ErrInvalidUserFormat)
    else
      let self := { self with
        User := sliceTo self.Normalized atIdx.toNat
        Host := sliceFrom self.Normalized (atIdx.toNat + 1) }
      if len self.User > 64 ∨ userDotRegexp self.User = true ∨ ¬ userRegexp self.User = true then
        (self, some Error.ErrInvalidUserFormat)
      else if ¬ hostRegexp self.Host = true then
        (self, some Error.ErrInvalidHostFormat)
      else
        (self, none)

/-! ## An excerpt of the Unicode tables -/

/-- Modelled from the spec: the rows of the canonical decomposition table of
Unicode for the letters of the Latin-1 Supplement, as (composite, base, mark);
"Rocío" and "Ñ" of step 2 are among them. -/
def latin1Rows : List (Nat × Nat × Nat) :=
  [(0xC0, 0x41, 0x300), (0xC1, 0x41, 0x301), (0xC2, 0x41, 0x302), (0xC3, 0x41, 0x303),
   (0xC4, 0x41, 0x308), (0xC5, 0x41, 0x30A), (0xC7, 0x43, 0x327),
   (0xC8, 0x45, 0x300), (0xC9, 0x45, 0x301), (0xCA, 0x45, 0x302), (0xCB, 0x45, 0x308),
   (0xCC, 0x49, 0x300), (0xCD, 0x49, 0x301), (0xCE, 0x49, 0x302), (0xCF, 0x49, 0x308),
   (0xD1, 0x4E, 0x303),
   (0xD2, 0x4F, 0x300), (0xD3, 0x4F, 0x301), (0xD4, 0x4F, 0x302), (0xD5, 0x4F, 0x303),
   (0xD6, 0x4F, 0x308),
   (0xD9, 0x55, 0x300), (0xDA, 0x55, 0x301), (0xDB, 0x55, 0x302), (0xDC, 0x55, 0x308),
   (0xDD, 0x59, 0x301),
   (0xE0, 0x61, 0x300), (0xE1, 0x61, 0x301), (0xE2, 0x61, 0x302), (0xE3, 0x61, 0x303),
   (0xE4, 0x61, 0x308), (0xE5, 0x61, 0x30A), (0xE7, 0x63, 0x327),
   (0xE8, 0x65, 0x300), (0xE9, 0x65, 0x301), (0xEA, 0x65, 0x302), (0xEB, 0x65, 0x308),
   (0xEC, 0x69, 0x300), (0xED, 0x69, 0x301), (0xEE, 0x69, 0x302), (0xEF, 0x69, 0x308),
   (0xF1, 0x6E, 0x303),
   (0xF2, 0x6F, 0x300), (0xF3, 0x6F, 0x301), (0xF4, 0x6F, 0x302), (0xF5, 0x6F, 0x303),
   (0xF6, 0x6F, 0x308),
   (0xF9, 0x75, 0x300), (0xFA, 0x75, 0x301), (0xFB, 0x75, 0x302), (0xFC, 0x75, 0x308),
   (0xFD, 0x79, 0x301), (0xFF, 0x79, 0x308)]

/-- Modelled from the spec: the Unicode data restricted to U+0000..U+00FF and the
combining marks U+0300..U+036F that the Latin-1 letters decompose into; every
other code point is taken to be inert.  It is used to run the code on concrete
addresses. -/
def latin1 : UnicodeData where
  decomp c :=
    if c.toNat < 0xC0 then [c]
    else match latin1Rows.find? (fun r => r.1 = c.toNat) with
      | some r => [Char.ofNat r.2.1, Char.ofNat r.2.2]
      | none => [c]
  ccc c :=
    if c.toNat < 0x300 then 0
    else if c.toNat = 0x327 then 202
    else if c.toNat ∈ [0x300, 0x301, 0x302, 0x303, 0x308, 0x30A] then 230 else 0
  compose a b :=
    if b.toNat < 0x300 then none
    else (latin1Rows.find? (fun r => r.2.1 = a.toNat ∧ r.2.2 = b.toNat)).map
      (fun r => Char.ofNat r.1)
  isMn c := 0x300 ≤ c.toNat && c.toNat ≤ 0x36F
  lower c :=
    if 0xC0 ≤ c.toNat ∧ c.toNat ≤ 0xDE ∧ c.toNat ≠ 0xD7 then Char.ofNat (c.toNat + 0x20) else c

/-! ## The table of the dynamic program -/

/-- The table entry `D i j`: the distance between the first `i` runes of `str1`
and the first `j` runes of `str2`. -/
def D {α : Type} [DecidableEq α] (str1 str2 : List α) (i j : Nat) : Nat :=
  lev (str1.take i) (str2.take j)

/-- Invariant of the inner loop at index `y`, during outer iteration `x + 1`:
entries below `y` belong to the new column, entries from `y` on to the old one,
and `lastkey` is the old entry at `y - 1`. -/
def InnerInv {α : Type} [DecidableEq α] (str1 str2 : List α) (x : Nat) (y : Nat)
    (st : List Nat × Nat) : Prop :=
  st.1.length = str1.length + 1 ∧
  (∀ i, i < y → st.1[i]? = some (D str1 str2 i (x + 1))) ∧
  (∀ i, y ≤ i → i ≤ str1.length → st.1[i]? = some (D str1 str2 i x)) ∧
  st.2 = D str1 str2 (y - 1) x


/-! ## The checks of `ValidateFormat`, named -/

/-- The part of a normalized address before its last '@' (`self.Normalized[:at]`). -/
def userPart (n : List Char) : List Char :=
  sliceTo n (LastIndex '@' n).toNat

/-- The part of a normalized address after its last '@' (`self.Normalized[at+1:]`). -/
def hostPart (n : List Char) : List Char :=
  sliceFrom n ((LastIndex '@' n).toNat + 1)

/-- The length check passes: the guard of line 81 is false. -/
abbrev lengthCheck (n : List Char) : Prop :=
  ¬ (len n < 6 ∨ len n > 254)

/-- The '@'-position check passes: the guard of line 86 is false. -/
abbrev atCheck (n : List Char) : Prop :=
  ¬ (LastIndex '@' n ≤ 0 ∨ LastIndex '@' n > (len n : Int) - 4)

/-- The user-length check passes: the first disjunct of the guard of line 93 is false. -/
abbrev userLengthCheck (n : List Char) : Prop :=
  ¬ len (userPart n) > 64

/-- The user dot check passes: the second disjunct of the guard of line 93 is false. -/
abbrev userDotCheck (n : List Char) : Prop :=
  ¬ userDotRegexp (userPart n) = true

/-- The user character-class check passes: the third disjunct of the guard of line 93 is false. -/
abbrev userClassCheck (n : List Char) : Prop :=
  userRegexp (userPart n) = true

/-- The checks of lines 81-95 all pass. -/
abbrev userChecks (n : List Char) : Prop :=
  lengthCheck n ∧ atCheck n ∧ userLengthCheck n ∧ userDotCheck n ∧ userClassCheck n

/-- The text after the first '.' of a host (empty when there is no '.'). -/
def afterFirstDot (h : List Char) : List Char :=
  (h.dropWhile (fun c => c != '.')).drop 1

/-- The text after the last '.' of a host, its top-level domain (the whole host
when there is no '.'). -/
def afterLastDot (h : List Char) : List Char :=
  (h.reverse.takeWhile (fun c => c != '.')).reverse

/-- An `EmailInfo` whose only field set is `ToEmail`, as the tests build it. -/
def emailTo (s : String) : EmailInfo :=
  { ToEmail := s.toList, FromEmail := [], User := [], Host := [], Normalized := [] }

/-! ## Facts of the Unicode tables, and classes of input -/

/-- The table fact that ASCII is inert under normalization: an ASCII rune is its own
decomposition, is a starter, is not a mark, and composes with no ASCII rune. -/
def AsciiInert (U : UnicodeData) : Prop :=
  ∀ c : Char, c.toNat < 0x80 →
    U.decomp c = [c] ∧ U.ccc c = 0 ∧ U.isMn c = false ∧
      ∀ a : Char, a.toNat < 0x80 → U.compose a c = none

/-- The table fact that lower-casing a rune above U+007F never gives an ASCII capital. -/
def LowerNoCapital (U : UnicodeData) : Prop :=
  ∀ c : Char, 0x80 ≤ c.toNat → ¬ (0x41 ≤ (U.lower c).toNat ∧ (U.lower c).toNat ≤ 0x5A)

/-- An ASCII letter. -/
def isAsciiLetter (c : Char) : Bool :=
  (0x41 ≤ c.toNat && c.toNat ≤ 0x5A) || (0x61 ≤ c.toNat && c.toNat ≤ 0x7A)

/-- A rune whose canonical decomposition is an ASCII letter followed by marks of
the category Mn. -/
def isPrecomposed (U : UnicodeData) (c : Char) : Bool :=
  match U.decomp c with
  | [] => false
  | b :: marks => isAsciiLetter b && marks.all U.isMn

/-- The first rune of the canonical decomposition of a rune: its base. -/
def baseOf (U : UnicodeData) (c : Char) : Char :=
  (U.decomp c).headD c

/-- The class `[a-z0-9!#$%&'*+/=?^_\x60\x7b|\x7d~.-]`: the class of `userRegexp`
without the capitals. -/
def lowerUserClass (c : Char) : Bool :=
  let n := c.toNat
  (0x61 ≤ n && n ≤ 0x7A) || (0x30 ≤ n && n ≤ 0x39) ||
  "!#$%&\x27*+/=?^_\x60\x7b|\x7d~.-".toList.contains c

/-- The text does not start with a rune of the class `f`. -/
def noLeading (f : Char → Bool) (s : List Char) : Bool :=
  match s.head? with
  | none => true
  | some c => !f c

/-- The text does not end with a rune of the class `f`. -/
def noTrailing (f : Char → Bool) (s : List Char) : Bool :=
  match s.getLast? with
  | none => true
  | some c => !f c

/-- The class `[a-z0-9!#$%&'*+/=?^_\x60\x7b|\x7d~.@-]` that the spec gives for an
accepted normalized address. -/
def addressClass (c : Char) : Bool :=
  lowerUserClass c || c = '@'

/-! ## `EmailInfo.TryFixHost`, `EmailInfo.ValidateHost` and `Fix` (mailfix.go, lines 55-75 and 103-128) -/

/-- The method `(*EmailInfo).TryFixHost`, whose body is `return nil`: the receiver
after the call and the error returned. -/
def TryFixHost (self : EmailInfo) : EmailInfo × Option Error :=
  (self, none)

/-- The error of a DNS lookup; the code only tests it against `nil`. -/
inductive NetError where
  | lookupFailed
  deriving DecidableEq, Repr

/-- The two lookups of package `net` that `ValidateHost` calls, as given results:
for each host the error returned (`none` for `nil`). -/
structure Net where
  LookupMX : List Char → Option NetError
  LookupIP : List Char → Option NetError

/-- The method `(*EmailInfo).ValidateHost`: the error returned. -/
def ValidateHost (net : Net) (self : EmailInfo) : Option Error :=
  if self.Host = "localhost".toList ∨ self.Host = "example.com".toList then
    some Error.InvalidDomain
  else
    let errMX := net.LookupMX self.Host
    let errLIP := net.LookupIP self.Host
    if errMX ≠ none ∧ errLIP ≠ none then some Error.InvalidDomain else none

/-- The result of `mailck.Check`, as far as `Fix` looks at it: the answers of its
three methods and its field `ResultDetail`. -/
structure CheckResult where
  IsValid : Bool
  IsError : Bool
  IsInvalid : Bool
  ResultDetail : List Char

/-- What a run of `Fix` does, in order: the calls it makes on the address record
and on `mailck`, and the lines it prints. -/
inductive Event where
  | ValidateHost (host : List Char)
  | TryFixHost (host : List Char)
  | Check (fromEmail toEmail : List Char)
  | Println (text : List Char)
  deriving DecidableEq, Repr

/-- The composite literal `EmailInfo{FromEmail: fromEmail, ToEmail: toEmail}` of
`Fix`: the other fields are empty strings. -/
def newEmailInfo (fromEmail toEmail : List Char) : EmailInfo :=
  { FromEmail := fromEmail, ToEmail := toEmail, User := [], Host := [], Normalized := [] }

/-- The `switch` that ends `Fix`: the line printed for the result of the probe. -/
def report (result : CheckResult) : List Event :=
  if result.IsValid = true then
    [Event.Println "the mailserver accepts mails for this mailbox.".toList]
  else if result.IsError = true then
    [Event.Println "something went wrong in the smtp communication".toList]
  else if result.IsInvalid = true then [Event.Println result.ResultDetail]
  else []

/-- The function `Fix(fromEmail, toEmail string)`, given the DNS results and the
SMTP probe `mailck.Check`: the events of the run and the address record `eInfo`
at the end. -/
def Fix (U : UnicodeData) (net : Net) (check : List Char → List Char → CheckResult)
    (fromEmail toEmail : List Char) : List Event × EmailInfo :=
  let eInfo := newEmailInfo fromEmail toEmail
  let r := ValidateFormat U eInfo
  let eInfo := r.1
  let err := r.2
  if err = some Error.ErrInvalidUserFormat then
    ([], eInfo)
  else
    let hostErr := ValidateHost net eInfo
    let fixed := if hostErr ≠ none then (TryFixHost eInfo).1 else eInfo
    let hostEvents :=
      if hostErr ≠ none then [Event.ValidateHost eInfo.Host, Event.TryFixHost eInfo.Host]
      else [Event.ValidateHost eInfo.Host]
    let result := check fromEmail toEmail
    (hostEvents ++ [Event.Check fromEmail toEmail] ++ report result, fixed)

/-- DNS results in which every lookup fails. -/
def noDNS : Net :=
  { LookupMX := fun _ => some NetError.lookupFailed
    LookupIP := fun _ => some NetError.lookupFailed }

/-- DNS results in which only the A/AAAA lookup of "gmail.com" succeeds. -/
def gmailDNS : Net :=
  { LookupMX := fun _ => some NetError.lookupFailed
    LookupIP := fun h => if h = "gmail.com".toList then none else some NetError.lookupFailed }

/-- An SMTP probe that finds every mailbox invalid. -/
def probeInvalid (_fromEmail _toEmail : List Char) : CheckResult :=
  { IsValid := false, IsError := false, IsInvalid := true, ResultDetail := "mailbox unavailable".toList }

/-! ## The corpus builder (data/main.go, lines 14-43)

The files that `filepath.Glob` finds are given as the lists of the lines that the
scanner reads from them, in the order of the scan. -/

/-- The statement `domains[txt] += 1` on the map `domains`, kept as the list of
its entries (key, count), no key twice. -/
def mapIncr : List (String × Nat) → String → List (String × Nat)
  | [], txt => [(txt, 1)]
  | (k, v) :: rest, txt => if k = txt then (k, v + 1) :: rest else (k, v) :: mapIncr rest txt

/-- The inner loop of `main`: every line of one file is counted in the map. -/
def scanFile (domains : List (String × Nat)) (lines : List String) : List (String × Nat) :=
  lines.foldl mapIncr domains

/-- The outer loop of `main`: the map `domains` after all files are read. -/
def scanFiles (files : List (List String)) : List (String × Nat) :=
  files.foldl scanFile []

/-- The lines that `main` writes to data/domains.txt: one line for each key of the
map, in the order of `for key := range domains`, which Go leaves unspecified; so
any arrangement of the keys is a possible output. -/
abbrev Writes (files : List (List String)) (out : List String) : Prop :=
  out.Perm ((scanFiles files).map Prod.fst)

/-! ## The cutset of the dot trims -/

/-- The cutset "." of `TrimRight` and `TrimLeft` in `normalizeString`, as a class. -/
def isDot (c : Char) : Bool :=
  ['.'].contains c

/-! ## Facts of the library that hold for every text -/

/-- A rune that normalization leaves alone: it is its own decomposition, is a
starter, is not a mark, and is the second part of no composite. -/
def Inert (U : UnicodeData) (c : Char) : Prop :=
  U.decomp c = [c] ∧ U.ccc c = 0 ∧ U.isMn c = false ∧ ∀ a : Char, U.compose a c = none

/-- Three facts of the library chain NFD, mark removal, NFC (`stripMarks`), none of
them about `normalizeString`: the chain is idempotent; a contiguous part of a
text that the chain leaves unchanged is left unchanged too; and so is the
lower-cased form of such a text. -/
def StripStable (U : UnicodeData) : Prop :=
  (∀ s : List Char, stripMarks U (stripMarks U s) = stripMarks U s) ∧
    (∀ t p : List Char, List.IsInfix p t → stripMarks U t = t → stripMarks U p = p) ∧
    (∀ t : List Char, stripMarks U t = t → stripMarks U (ToLower U t) = ToLower U t)

/-- The table fact that lower-casing a rune above U+007F never gives a dot and
gives whitespace only from whitespace. -/
def LowerKeepsClass (U : UnicodeData) : Prop :=
  ∀ c : Char, 0x80 ≤ c.toNat → U.lower c ≠ '.' ∧ isSpace (U.lower c) = isSpace c

/-- The table fact that lower-casing twice is lower-casing once. -/
def LowerIdem (U : UnicodeData) : Prop :=
  ∀ c : Char, 0x80 ≤ c.toNat → toLowerRune U (U.lower c) = U.lower c

/-! # Theorems -/

/-! ## Facts about the reference edit distance -/

theorem lev_nil_left {α : Type} [DecidableEq α] (b : List α) : lev [] b = b.length := rfl

theorem lev_nil_right {α : Type} [DecidableEq α] (a : List α) : lev a [] = a.length := by
  induction a with
  | nil => rfl
  | cons x a ih => simp [lev, levRow, ih]

theorem lev_cons_cons {α : Type} [DecidableEq α] (x y : α) (a b : List α) :
    lev (x :: a) (y :: b) =
      Min.min (lev a (y :: b) + 1)
        (Min.min (lev (x :: a) b + 1) (lev a b + if x = y then 0 else 1)) := rfl

/-- The recursion of `lev` read at the end of both lists. -/
theorem lev_snoc_snoc {α : Type} [DecidableEq α] (x y : α) (a : List α) :
    ∀ b : List α, lev (a ++ [x]) (b ++ [y]) =
      Min.min (lev a (b ++ [y]) + 1)
        (Min.min (lev (a ++ [x]) b + 1) (lev a b + if x = y then 0 else 1)) := by
  induction a with
  | nil =>
    intro b
    induction b with
    | nil => simp [lev_cons_cons, lev_nil_left, lev_nil_right]
    | cons v b ihb =>
      simp only [List.nil_append, List.cons_append] at ihb ⊢
      rw [lev_cons_cons, ihb, lev_cons_cons]
      simp only [lev_nil_left, List.length_append, List.length_cons, List.length_nil]
      generalize (if x = y then 0 else 1) = d1
      generalize (if x = v then 0 else 1) = d2
      generalize lev [x] b = t
      omega
  | cons u a iha =>
    intro b
    induction b with
    | nil =>
      have h := iha []
      simp only [List.nil_append, List.cons_append] at h ⊢
      rw [lev_cons_cons, h, lev_cons_cons]
      simp only [lev_nil_right, List.length_append, List.length_cons, List.length_nil]
      generalize (if x = y then 0 else 1) = d1
      generalize (if u = y then 0 else 1) = d2
      generalize lev a [y] = t
      omega
    | cons v b ihb =>
      have h1 := iha (v :: b)
      have h2 := iha b
      simp only [List.cons_append] at h1 h2 ihb ⊢
      rw [lev_cons_cons, h1, ihb, h2, lev_cons_cons u v a (b ++ [y]), lev_cons_cons u v (a ++ [x]) b,
        lev_cons_cons u v a b]
      generalize (if x = y then 0 else 1) = d1
      generalize (if u = v then 0 else 1) = d2
      generalize lev a (v :: (b ++ [y])) = t1
      generalize lev (a ++ [x]) (v :: b) = t2
      generalize lev a (v :: b) = t3
      generalize lev (u :: a) (b ++ [y]) = t4
      generalize lev (u :: (a ++ [x])) b = t5
      generalize lev (u :: a) b = t6
      generalize lev a (b ++ [y]) = t7
      generalize lev (a ++ [x]) b = t8
      generalize lev a b = t9
      simp only [← Nat.add_min_add_right, Nat.add_assoc]
      ac_rfl


/-- The reference definition `lev` is the edit distance of Mathlib at unit costs
(`levenshtein` with `Levenshtein.defaultCost`). -/
theorem lev_eq_levenshtein {α : Type} [DecidableEq α] (a : List α) :
    ∀ b : List α, lev a b = levenshtein Levenshtein.defaultCost a b := by
  induction a with
  | nil =>
    intro b
    induction b with
    | nil => simp [lev_nil_left]
    | cons y b ih =>
      rw [levenshtein_nil_cons, ← ih, lev_nil_left, lev_nil_left]
      simp [Levenshtein.defaultCost]; omega
  | cons x a iha =>
    intro b
    induction b with
    | nil =>
      rw [levenshtein_cons_nil, ← iha, lev_nil_right, lev_nil_right]
      simp [Levenshtein.defaultCost]; omega
    | cons y b ihb =>
      rw [levenshtein_cons_cons, ← iha, ← iha, ← ihb, lev_cons_cons]
      simp only [Levenshtein.defaultCost]
      generalize (if x = y then 0 else 1) = d
      omega

/-! ## Loop invariants -/

theorem min_eq_min (a b : Nat) : min a b = Min.min a b := by
  unfold min
  split <;> omega

/-- Invariant rule for a fold over `s, s+1, …, s+n-1`: the body never fails
under the invariant and re-establishes it. -/
theorem foldlM_range_inv {σ : Type} (body : σ → Nat → Option σ) (Inv : Nat → σ → Prop) :
    ∀ (n s : Nat) (st : σ), Inv s st →
      (∀ i st, s ≤ i → i < s + n → Inv i st → ∃ st', body st i = some st' ∧ Inv (i + 1) st') →
      ∃ st', (List.range' s n).foldlM body st = some st' ∧ Inv (s + n) st' := by
  intro n
  induction n with
  | zero => intro s st h _; exact ⟨st, by simp, by simpa using h⟩
  | succ n ih =>
    intro s st h hstep
    obtain ⟨st1, h1, hInv1⟩ := hstep s st (Nat.le_refl s) (by omega) h
    obtain ⟨st2, h2, hInv2⟩ := ih (s + 1) st1 hInv1
      (fun i st hi hlt hI => hstep i st (by omega) (by omega) hI)
    refine ⟨st2, ?_, ?_⟩
    · rw [List.range'_succ, List.foldlM_cons, h1]
      exact h2
    · have e : s + (n + 1) = s + 1 + n := by omega
      rw [e]; exact hInv2

/-- Invariant rule for `forLoop lo hi`. -/
theorem forLoop_inv {σ : Type} (lo hi : Nat) (body : σ → Nat → Option σ) (Inv : Nat → σ → Prop)
    (init : σ) (hlo : lo ≤ hi + 1) (h0 : Inv lo init)
    (hstep : ∀ i st, lo ≤ i → i ≤ hi → Inv i st → ∃ st', body st i = some st' ∧ Inv (i + 1) st') :
    ∃ st', forLoop lo hi body init = some st' ∧ Inv (hi + 1) st' := by
  obtain ⟨st', h1, h2⟩ := foldlM_range_inv body Inv (hi + 1 - lo) lo init h0
    (fun i st hi1 hi2 hI => hstep i st hi1 (by omega) hI)
  refine ⟨st', h1, ?_⟩
  have e : lo + (hi + 1 - lo) = hi + 1 := by omega
  rw [e] at h2; exact h2

theorem D_zero_right {α : Type} [DecidableEq α] (str1 str2 : List α) (i : Nat)
    (hi : i ≤ str1.length) : D str1 str2 i 0 = i := by
  simp [D, lev_nil_right, hi]

theorem D_zero_left {α : Type} [DecidableEq α] (str1 str2 : List α) (j : Nat)
    (hj : j ≤ str2.length) : D str1 str2 0 j = j := by
  simp [D, lev_nil_left, hj]

theorem D_succ_succ {α : Type} [DecidableEq α] (str1 str2 : List α) (i j : Nat) (c1 c2 : α)
    (h1 : str1[i]? = some c1) (h2 : str2[j]? = some c2) :
    D str1 str2 (i + 1) (j + 1) =
      Min.min (D str1 str2 i (j + 1) + 1)
        (Min.min (D str1 str2 (i + 1) j + 1) (D str1 str2 i j + if c1 = c2 then 0 else 1)) := by
  have e1 : str1.take (i + 1) = str1.take i ++ [c1] := by rw [List.take_succ, h1]; rfl
  have e2 : str2.take (j + 1) = str2.take j ++ [c2] := by rw [List.take_succ, h2]; rfl
  unfold D
  rw [e1, e2, lev_snoc_snoc]

theorem D_full {α : Type} [DecidableEq α] (str1 str2 : List α) :
    D str1 str2 str1.length str2.length = lev str1 str2 := by
  simp [D]


theorem setIdx_eq_some (s : List Nat) (i v : Nat) (h : i < s.length) :
    setIdx s i v = some (s.set i v) := by
  simp [setIdx, h]

/-- The first loop fills the column with `0, 1, …, len(str1)`. -/
theorem initLoop_spec (n : Nat) :
    ∃ col, forLoop 1 n (fun column y => setIdx column y y) (List.replicate (n + 1) 0) = some col ∧
      col.length = n + 1 ∧ ∀ i, i ≤ n → col[i]? = some i := by
  obtain ⟨col, h1, h2, h3⟩ := forLoop_inv 1 n (fun column y => setIdx column y y)
    (fun y col => col.length = n + 1 ∧ ∀ i, i < y → col[i]? = some i)
    (List.replicate (n + 1) 0) (by omega)
    ⟨by simp, by
      intro i hi
      have : i = 0 := by omega
      subst this
      simp⟩
    (by
      intro y col hy1 hy2 hI
      obtain ⟨hlen, hcol⟩ := hI
      refine ⟨col.set y y, setIdx_eq_some col y y (by omega), by simpa using hlen, ?_⟩
      intro i hi
      rw [List.getElem?_set]
      by_cases hiy : y = i
      · subst hiy
        simp [show y < col.length by omega]
      · simp only [hiy, if_false]
        exact hcol i (by omega))
  exact ⟨col, h1, h2, fun i hi => h3 i (by omega)⟩

theorem innerBody_spec {α : Type} [DecidableEq α] (str1 str2 : List α) (x : Nat)
    (hx : x < str2.length) (y : Nat) (st : List Nat × Nat) (hy1 : 1 ≤ y)
    (hy2 : y ≤ str1.length) (hI : InnerInv str1 str2 x y st) :
    ∃ st', innerBody str1 str2 (x + 1) st y = some st' ∧ InnerInv str1 str2 x (y + 1) st' := by
  obtain ⟨k, rfl⟩ : ∃ k, y = k + 1 := ⟨y - 1, by omega⟩
  obtain ⟨col, lastkey⟩ := st
  obtain ⟨hlen, hnew, hold, hlast⟩ := hI
  simp only at hlen hnew hold hlast
  simp only [Nat.add_sub_cancel] at hlast
  have hk : k < str1.length := by omega
  have hc1 : str1[k]? = some str1[k] := List.getElem?_eq_getElem hk
  have hc2 : str2[x]? = some str2[x] := List.getElem?_eq_getElem hx
  have hcy : col[k + 1]? = some (D str1 str2 (k + 1) x) := hold (k + 1) (Nat.le_refl _) hy2
  have hcy1 : col[k]? = some (D str1 str2 k (x + 1)) := hnew k (by omega)
  refine ⟨(col.set (k + 1) (D str1 str2 (k + 1) (x + 1)), D str1 str2 (k + 1) x), ?_, ?_⟩
  · simp only [innerBody, Nat.add_sub_cancel, hcy, hc1, hc2, hcy1, Option.bind_eq_bind,
      Option.some_bind, Option.pure_def]
    rw [setIdx_eq_some _ _ _ (by omega)]
    simp only [Option.some_bind, Option.some.injEq, Prod.mk.injEq, and_true]
    congr 1
    rw [D_succ_succ str1 str2 k x _ _ hc1 hc2, min_eq_min, min_eq_min, hlast]
    have e : (if str1[k] ≠ str2[x] then 1 else 0) = (if str1[k] = str2[x] then 0 else 1) := by
      split_ifs <;> simp_all
    rw [e]
    generalize (if str1[k] = str2[x] then 0 else 1) = d
    omega
  · refine ⟨by simpa using hlen, ?_, ?_, by simp⟩
    · intro i hi
      simp only
      rw [List.getElem?_set]
      by_cases hik : k + 1 = i
      · subst hik
        simp [show k + 1 < col.length by omega]
      · simp only [hik, if_false]
        exact hnew i (by omega)
    · intro i hi1 hi2
      simp only
      rw [List.getElem?_set]
      have hik : ¬ k + 1 = i := by omega
      simp only [hik, if_false]
      exact hold i (by omega) hi2


theorem outerBody_spec {α : Type} [DecidableEq α] (str1 str2 : List α) (x : Nat)
    (hx : x < str2.length) (col : List Nat) (hlen : col.length = str1.length + 1)
    (hcol : ∀ i, i ≤ str1.length → col[i]? = some (D str1 str2 i x)) :
    ∃ col', outerBody str1 str2 col (x + 1) = some col' ∧ col'.length = str1.length + 1 ∧
      ∀ i, i ≤ str1.length → col'[i]? = some (D str1 str2 i (x + 1)) := by
  have h0 : InnerInv str1 str2 x 1 (col.set 0 (x + 1), x) := by
    refine ⟨by simpa using hlen, ?_, ?_, ?_⟩
    · intro i hi
      have : i = 0 := by omega
      subst this
      simp only
      rw [List.getElem?_set, D_zero_left str1 str2 (x + 1) (by omega)]
      simp [show 0 < col.length by omega]
    · intro i hi1 hi2
      simp only
      rw [List.getElem?_set]
      have : ¬ 0 = i := by omega
      simp only [this, if_false]
      exact hcol i hi2
    · simp only [Nat.sub_self]
      rw [D_zero_left str1 str2 x (by omega)]
  obtain ⟨st', h1, h2⟩ := forLoop_inv 1 str1.length (innerBody str1 str2 (x + 1))
    (InnerInv str1 str2 x) (col.set 0 (x + 1), x) (by omega) h0
    (fun y st hy1 hy2 hI => innerBody_spec str1 str2 x hx y st hy1 hy2 hI)
  obtain ⟨hl, hnew, _, _⟩ := h2
  refine ⟨st'.1, ?_, hl, fun i hi => hnew i (by omega)⟩
  simp only [outerBody, Nat.add_sub_cancel, Option.bind_eq_bind, Option.pure_def]
  rw [setIdx_eq_some _ _ _ (by omega)]
  simp only [Option.some_bind, h1]

/-- The second loop turns the initial column into the last column of the table. -/
theorem outerLoop_spec {α : Type} [DecidableEq α] (str1 str2 : List α) (col : List Nat)
    (hlen : col.length = str1.length + 1) (hcol : ∀ i, i ≤ str1.length → col[i]? = some i) :
    ∃ col', forLoop 1 str2.length (outerBody str1 str2) col = some col' ∧
      ∀ i, i ≤ str1.length → col'[i]? = some (D str1 str2 i str2.length) := by
  obtain ⟨col', h1, h2⟩ := forLoop_inv 1 str2.length (outerBody str1 str2)
    (fun x cl => cl.length = str1.length + 1 ∧
      ∀ i, i ≤ str1.length → cl[i]? = some (D str1 str2 i (x - 1)))
    col (by omega)
    ⟨hlen, fun i hi => by
      simp only [Nat.sub_self]
      rw [D_zero_right str1 str2 i hi]; exact hcol i hi⟩
    (by
      intro x cl hx1 hx2 hI
      obtain ⟨k, rfl⟩ : ∃ k, x = k + 1 := ⟨x - 1, by omega⟩
      simp only [Nat.add_sub_cancel] at hI ⊢
      exact outerBody_spec str1 str2 k (by omega) cl hI.1 hI.2)
  simp only [Nat.add_sub_cancel] at h2
  exact ⟨col', h1, h2.2⟩

/-! ## C1 -/

/-- C1: for every pair of rune sequences (empty ones included),
`levenshteinDistance` returns (without any out-of-range access) the Levenshtein
edit distance of its arguments, as given by the recursive reference definition
`lev`, which is also the edit distance of Mathlib at unit costs. -/
theorem levenshteinDistance_eq_lev {α : Type} [DecidableEq α] (str1 str2 : List α) :
    levenshteinDistance str1 str2 = some (lev str1 str2) ∧
      lev str1 str2 = levenshtein Levenshtein.defaultCost str1 str2 := by
  obtain ⟨c0, e0, hl0, h0⟩ := initLoop_spec str1.length
  obtain ⟨c1, e1, h1⟩ := outerLoop_spec str1 str2 c0 hl0 h0
  refine ⟨?_, lev_eq_levenshtein str1 str2⟩
  simp only [levenshteinDistance, e0, e1, Option.bind_eq_bind, Option.some_bind]
  rw [h1 str1.length (Nat.le_refl _), D_full]

/-- C1, the test vector of `TestLDistance`: the code returns 3 on "sitting" and
"kitten", and 3 is their edit distance. -/
theorem levenshteinDistance_sitting_kitten :
    levenshteinDistance "sitting".toList "kitten".toList = some 3 ∧
      lev "sitting".toList "kitten".toList = 3 := by
  have h := (levenshteinDistance_eq_lev "sitting".toList "kitten".toList).1
  have e : levenshteinDistance "sitting".toList "kitten".toList = some 3 := by decide
  rw [e] at h
  exact ⟨e, (Option.some.inj h).symm⟩

/-! ## Strings: lengths, `LastIndex` and slices -/

theorem runeLen_pos (c : Char) : 1 ≤ runeLen c := by
  unfold runeLen; split_ifs <;> omega

theorem len_append (a b : List Char) : len (a ++ b) = len a + len b := by
  induction a with
  | nil => simp [len]
  | cons c a ih => simp [len, ih, Nat.add_assoc]

theorem length_le_len (a : List Char) : a.length ≤ len a := by
  induction a with
  | nil => simp [len]
  | cons c a ih => have := runeLen_pos c; simp only [len, List.length_cons]; omega

theorem len_eq_zero {a : List Char} (h : len a = 0) : a = [] := by
  have := length_le_len a
  exact List.length_eq_zero.mp (by omega)

theorem LastIndex_ge (sep : Char) (s : List Char) : -1 ≤ LastIndex sep s := by
  induction s with
  | nil => simp [LastIndex]
  | cons c cs ih =>
    unfold LastIndex
    split_ifs <;> omega

/-- A non-negative `LastIndex` is the byte offset of an occurrence of the
separator that no other occurrence follows. -/
theorem LastIndex_nonneg (sep : Char) : ∀ s : List Char, 0 ≤ LastIndex sep s →
    ∃ u h, s = u ++ sep :: h ∧ sep ∉ h ∧ LastIndex sep s = (len u : Int) := by
  intro s
  induction s with
  | nil => intro h; simp [LastIndex] at h
  | cons c cs ih =>
    intro h
    unfold LastIndex at h ⊢
    by_cases h0 : 0 ≤ LastIndex sep cs
    · obtain ⟨u, t, e, hn, hl⟩ := ih h0
      refine ⟨c :: u, t, by rw [e]; rfl, hn, ?_⟩
      rw [if_pos h0, hl]
      simp only [len]
      push_cast; ring
    · simp only [h0, if_false] at h ⊢
      by_cases hc : c = sep
      · subst hc
        refine ⟨[], cs, rfl, ?_, by simp [len]⟩
        intro hmem
        apply h0
        clear h ih h0
        induction cs with
        | nil => simp at hmem
        | cons d ds ihd =>
          unfold LastIndex
          by_cases h1 : 0 ≤ LastIndex c ds
          · simp only [h1, if_true]; omega
          · simp only [h1, if_false]
            rcases List.mem_cons.mp hmem with h2 | h2
            · simp [h2]
            · exact absurd (ihd h2) h1
      · simp [hc] at h

/-- The separator occurs in no text whose `LastIndex` is negative. -/
theorem LastIndex_neg (sep : Char) : ∀ s : List Char, LastIndex sep s < 0 → sep ∉ s := by
  intro s
  induction s with
  | nil => intro _; simp
  | cons c cs ih =>
    intro h
    unfold LastIndex at h
    by_cases h0 : 0 ≤ LastIndex sep cs
    · simp only [h0, if_true] at h; omega
    · simp only [h0, if_false] at h
      by_cases hc : c = sep
      · simp [hc] at h
      · intro hmem
        rcases List.mem_cons.mp hmem with h2 | h2
        · exact hc h2.symm
        · exact ih (by omega) h2

/-- The value of `LastIndex` at a text split at the last occurrence of the separator. -/
theorem LastIndex_split (sep : Char) (u h : List Char) (hn : sep ∉ h) :
    LastIndex sep (u ++ sep :: h) = (len u : Int) := by
  have hh : LastIndex sep h < 0 := by
    by_contra hc
    obtain ⟨u', h', e, _, _⟩ := LastIndex_nonneg sep h (by omega)
    exact hn (by rw [e]; simp)
  induction u with
  | nil =>
    simp only [List.nil_append, len]
    unfold LastIndex
    simp [show ¬ 0 ≤ LastIndex sep h by omega]
  | cons c u ih =>
    simp only [List.cons_append, len]
    unfold LastIndex
    have : 0 ≤ LastIndex sep (u ++ sep :: h) := by rw [ih]; omega
    rw [if_pos this, ih]
    push_cast; ring

theorem sliceTo_append (u v : List Char) : sliceTo (u ++ v) (len u) = u := by
  induction u with
  | nil =>
    cases v with
    | nil => rfl
    | cons c cs => have := runeLen_pos c; simp [sliceTo, len]; omega
  | cons c u ih => simp [sliceTo, len, ih]

theorem sliceFrom_append (u v : List Char) : sliceFrom (u ++ v) (len u) = v := by
  induction u with
  | nil => cases v <;> simp [sliceFrom, len]
  | cons c u ih =>
    have := runeLen_pos c
    simp only [List.cons_append, sliceFrom, len]
    rw [if_neg (by omega)]
    simpa using ih

theorem runeLen_at : runeLen '@' = 1 := by decide

/-- The two slices taken by `ValidateFormat` at a text split at its last '@'. -/
theorem parts_split (u h : List Char) (hn : '@' ∉ h) :
    userPart (u ++ '@' :: h) = u ∧ hostPart (u ++ '@' :: h) = h := by
  have e := LastIndex_split '@' u h hn
  constructor
  · unfold userPart
    rw [e, Int.toNat_ofNat, sliceTo_append]
  · unfold hostPart
    rw [e, Int.toNat_ofNat]
    have e2 : u ++ '@' :: h = (u ++ ['@']) ++ h := by simp
    have e3 : len u + 1 = len (u ++ ['@']) := by rw [len_append]; simp [len, runeLen_at]
    rw [e2, e3, sliceFrom_append]

/-! ## The structure of `ValidateFormat` -/

/-- The error returned by `ValidateFormat`, check by check. -/
theorem ValidateFormat_error (U : UnicodeData) (self : EmailInfo) :
    (ValidateFormat U self).2 =
      if ¬ lengthCheck (normalizeString U self.ToEmail) then some Error.ErrInvalidUserFormat
      else if ¬ atCheck (normalizeString U self.ToEmail) then some Error.ErrInvalidUserFormat
      else if ¬ (userLengthCheck (normalizeString U self.ToEmail) ∧
          userDotCheck (normalizeString U self.ToEmail) ∧
          userClassCheck (normalizeString U self.ToEmail)) then some Error.ErrInvalidUserFormat
      else if ¬ hostRegexp (hostPart (normalizeString U self.ToEmail)) = true then
        some Error.ErrInvalidHostFormat
      else none := by
  unfold ValidateFormat lengthCheck atCheck userLengthCheck userDotCheck userClassCheck
    userPart hostPart
  dsimp only
  generalize normalizeString U self.ToEmail = n
  split_ifs <;> first | rfl | (exfalso; tauto)

/-- The field `Normalized` after `ValidateFormat`, whatever it returns. -/
theorem ValidateFormat_Normalized (U : UnicodeData) (self : EmailInfo) :
    (ValidateFormat U self).1.Normalized = normalizeString U self.ToEmail := by
  unfold ValidateFormat
  dsimp only
  generalize normalizeString U self.ToEmail = n
  split_ifs <;> rfl

/-- The fields `User` and `Host` after `ValidateFormat`, once the length and
'@'-position checks have passed. -/
theorem ValidateFormat_parts (U : UnicodeData) (self : EmailInfo)
    (h1 : lengthCheck (normalizeString U self.ToEmail))
    (h2 : atCheck (normalizeString U self.ToEmail)) :
    (ValidateFormat U self).1.User = userPart (normalizeString U self.ToEmail) ∧
      (ValidateFormat U self).1.Host = hostPart (normalizeString U self.ToEmail) := by
  unfold lengthCheck at h1
  unfold atCheck at h2
  unfold ValidateFormat userPart hostPart
  dsimp only
  generalize normalizeString U self.ToEmail = n at h1 h2 ⊢
  rw [if_neg h1, if_neg h2]
  split_ifs <;> exact ⟨rfl, rfl⟩

/-- What acceptance means: every check passed. -/
theorem ValidateFormat_accept (U : UnicodeData) (self : EmailInfo)
    (h : (ValidateFormat U self).2 = none) :
    userChecks (normalizeString U self.ToEmail) ∧
      hostRegexp (hostPart (normalizeString U self.ToEmail)) = true := by
  rw [ValidateFormat_error] at h
  generalize normalizeString U self.ToEmail = n at h ⊢
  unfold userChecks
  split_ifs at h with h1 h2 h3 h4
  simp only [not_not] at h1 h2 h3 h4
  exact ⟨⟨h1, h2, h3⟩, h4⟩

/-- A text that passes the '@'-position check splits at its last '@' into a
non-empty user part and a host part of at least three bytes. -/
theorem atCheck_split (n : List Char) (h2 : atCheck n) :
    n = userPart n ++ '@' :: hostPart n ∧ '@' ∉ hostPart n ∧
      LastIndex '@' n = (len (userPart n) : Int) ∧
      1 ≤ len (userPart n) ∧ 3 ≤ len (hostPart n) ∧
      len n = len (userPart n) + 1 + len (hostPart n) := by
  unfold atCheck at h2
  obtain ⟨u, h, e, hn, hl⟩ := LastIndex_nonneg '@' n (by omega)
  obtain ⟨eu, eh⟩ := parts_split u h hn
  rw [← e] at eu eh
  have hlen : len n = len u + 1 + len h := by
    rw [e, len_append]; simp [len, runeLen_at]; omega
  rw [eu, eh]
  refine ⟨e, hn, hl, by omega, by omega, hlen⟩


/-! ## The patterns -/

/-- A match of `hostRegexp` splits the host around one of its dots. -/
theorem hostRegexp_split (h : List Char) (hm : hostRegexp h = true) :
    ∃ p q, h = p ++ '.' :: q ∧ p ≠ [] ∧ 2 ≤ q.length ∧
      (∀ c ∈ p, reSpace c = false) ∧ (∀ c ∈ q, reSpace c = false) := by
  unfold hostRegexp at hm
  rw [List.any_eq_true] at hm
  obtain ⟨i, _, hi⟩ := hm
  rw [Bool.and_eq_true, Bool.and_eq_true] at hi
  obtain ⟨⟨hp1, hp2⟩, hq⟩ := hi
  cases hd : h.drop i with
  | nil => rw [hd] at hq; simp at hq
  | cons d q =>
    rw [hd] at hq
    simp only [Bool.and_eq_true, decide_eq_true_eq, List.all_eq_true, Bool.not_eq_true'] at hq
    obtain ⟨⟨hdot, hlen⟩, hq2⟩ := hq
    subst hdot
    refine ⟨h.take i, q, ?_, ?_, hlen, ?_, hq2⟩
    · rw [← hd, List.take_append_drop]
    · intro he; rw [he] at hp1; simp at hp1
    · simpa using hp2

/-- A text split around a dot, with no `\s` rune, a non-empty left part and a
right part of two runes or more, matches `hostRegexp`. -/
theorem hostRegexp_of_split (p q : List Char) (hp : p ≠ []) (hq : 2 ≤ q.length)
    (hp2 : ∀ c ∈ p, reSpace c = false) (hq2 : ∀ c ∈ q, reSpace c = false) :
    hostRegexp (p ++ '.' :: q) = true := by
  unfold hostRegexp
  rw [List.any_eq_true]
  refine ⟨p.length, by simp; omega, ?_⟩
  have e1 : (p ++ '.' :: q).take p.length = p := by simp
  have e2 : (p ++ '.' :: q).drop p.length = '.' :: q := by simp
  rw [e1, e2]
  simp only [Bool.and_eq_true, decide_eq_true_eq, List.all_eq_true, Bool.not_eq_true',
    Bool.not_eq_true, List.isEmpty_eq_false, true_and]
  exact ⟨⟨by simpa using hp, hp2⟩, hq, hq2⟩

theorem reSpace_dot : reSpace '.' = false := by decide

/-- No rune of a host that matches `hostRegexp` is in the class `\s`. -/
theorem hostRegexp_noSpace (h : List Char) (hm : hostRegexp h = true) :
    ∀ c ∈ h, reSpace c = false := by
  obtain ⟨p, q, e, _, _, hp, hq⟩ := hostRegexp_split h hm
  intro c hc
  rw [e] at hc
  rcases List.mem_append.mp hc with h1 | h1
  · exact hp c h1
  · rcases List.mem_cons.mp h1 with h2 | h2
    · rw [h2]; exact reSpace_dot
    · exact hq c h2

/-- The suffix that starts at the first rune refused by `f` is at least as long
as any suffix that starts at such a rune. -/
theorem length_dropWhile_ge (f : Char → Bool) (d : Char) (hd : f d = false) (q : List Char) :
    ∀ p : List Char, (d :: q).length ≤ ((p ++ d :: q).dropWhile f).length := by
  intro p
  induction p with
  | nil => simp [List.dropWhile, hd]
  | cons c p ih =>
    simp only [List.cons_append, List.dropWhile]
    cases hc : f c with
    | true => exact ih
    | false => simp; omega

/-- A host that matches `hostRegexp` has a dot, and two runes or more after its
first dot. -/
theorem hostRegexp_dot (h : List Char) (hm : hostRegexp h = true) :
    '.' ∈ h ∧ 2 ≤ (afterFirstDot h).length := by
  obtain ⟨p, q, e, _, hq, _, _⟩ := hostRegexp_split h hm
  constructor
  · rw [e]; simp
  · unfold afterFirstDot
    have := length_dropWhile_ge (fun c => c != '.') '.' (by decide) q p
    rw [e, List.length_drop]
    simp only [List.length_cons] at this
    omega

/-- A match of `userRegexp` is a non-empty text of runes of the class. -/
theorem userRegexp_iff (u : List Char) :
    userRegexp u = true ↔ u ≠ [] ∧ ∀ c ∈ u, userClass c = true := by
  unfold userRegexp
  simp [List.all_eq_true]

theorem userClass_at : userClass '@' = false := by decide

/-- The case analysis behind the error returned by a chain of four guards. -/
theorem error_partition_aux (A B C : Prop) [Decidable A] [Decidable B] [Decidable C]
    (hb : Bool) :
    ((if ¬ A then some Error.ErrInvalidUserFormat
        else if ¬ B then some Error.ErrInvalidUserFormat
        else if ¬ C then some Error.ErrInvalidUserFormat
        else if ¬ hb = true then some Error.ErrInvalidHostFormat
        else none) = some Error.ErrInvalidUserFormat ↔ ¬ (A ∧ B ∧ C)) ∧
      ((if ¬ A then some Error.ErrInvalidUserFormat
        else if ¬ B then some Error.ErrInvalidUserFormat
        else if ¬ C then some Error.ErrInvalidUserFormat
        else if ¬ hb = true then some Error.ErrInvalidHostFormat
        else none) = some Error.ErrInvalidHostFormat ↔ (A ∧ B ∧ C) ∧ hb = false) ∧
      (if ¬ A then some Error.ErrInvalidUserFormat
        else if ¬ B then some Error.ErrInvalidUserFormat
        else if ¬ C then some Error.ErrInvalidUserFormat
        else if ¬ hb = true then some Error.ErrInvalidHostFormat
        else none) ≠ some Error.InvalidDomain := by
  by_cases hA : A <;> by_cases hB : B <;> by_cases hC : C <;> cases hb <;> simp [hA, hB, hC]

/-- The error returned by `ValidateFormat`, in terms of the named checks. -/
theorem ValidateFormat_error_iff (U : UnicodeData) (self : EmailInfo) :
    ((ValidateFormat U self).2 = some Error.ErrInvalidUserFormat ↔
        ¬ userChecks (normalizeString U self.ToEmail)) ∧
      ((ValidateFormat U self).2 = some Error.ErrInvalidHostFormat ↔
        userChecks (normalizeString U self.ToEmail) ∧
          hostRegexp (hostPart (normalizeString U self.ToEmail)) = false) ∧
      (ValidateFormat U self).2 ≠ some Error.InvalidDomain := by
  rw [ValidateFormat_error]
  exact error_partition_aux _ _ _ _

/-! ## C3 -/

/-- C3: whenever `ValidateFormat` returns nil, afterwards
`Normalized == User + "@" + Host`, and `User` and `Host` are both non-empty. -/
theorem ValidateFormat_user_at_host (U : UnicodeData) (self : EmailInfo)
    (h : (ValidateFormat U self).2 = none) :
    (ValidateFormat U self).1.Normalized =
        (ValidateFormat U self).1.User ++ ['@'] ++ (ValidateFormat U self).1.Host ∧
      (ValidateFormat U self).1.User ≠ [] ∧ (ValidateFormat U self).1.Host ≠ [] := by
  obtain ⟨⟨h1, h2, _⟩, _⟩ := ValidateFormat_accept U self h
  obtain ⟨eU, eH⟩ := ValidateFormat_parts U self h1 h2
  obtain ⟨e, _, _, hu, hh, _⟩ := atCheck_split _ h2
  rw [ValidateFormat_Normalized, eU, eH]
  refine ⟨by simpa using e, ?_, ?_⟩
  · intro he; rw [he] at hu; simp [len] at hu
  · intro he; rw [he] at hh; simp [len] at hh

/-- C3 at the accepted address "r0.syl@gmail.com" of `TestEmailFormat`. -/
theorem ValidateFormat_user_at_host_witness :
    (ValidateFormat latin1 (emailTo "r0.syl@gmail.com")).2 = none ∧
      ((ValidateFormat latin1 (emailTo "r0.syl@gmail.com")).1.Normalized =
          (ValidateFormat latin1 (emailTo "r0.syl@gmail.com")).1.User ++ ['@'] ++
            (ValidateFormat latin1 (emailTo "r0.syl@gmail.com")).1.Host ∧
        (ValidateFormat latin1 (emailTo "r0.syl@gmail.com")).1.User ≠ [] ∧
        (ValidateFormat latin1 (emailTo "r0.syl@gmail.com")).1.Host ≠ []) :=
  ⟨by decide, ValidateFormat_user_at_host latin1 (emailTo "r0.syl@gmail.com") (by decide)⟩

/-! ## C4 -/

/-- C4: `ValidateFormat` returns `ErrInvalidUserFormat` exactly when the
normalized input fails one of the length check, the '@'-position check, the
user-length check, the user dot check and the user character-class check (the
host pattern plays no part), it returns `ErrInvalidHostFormat` exactly when all of
those pass and the host fails the host pattern, and it returns no other error. -/
theorem ValidateFormat_error_partition (U : UnicodeData) (self : EmailInfo) :
    ((ValidateFormat U self).2 = some Error.ErrInvalidUserFormat ↔
        ¬ userChecks (normalizeString U self.ToEmail)) ∧
      ((ValidateFormat U self).2 = some Error.ErrInvalidHostFormat ↔
        userChecks (normalizeString U self.ToEmail) ∧
          hostRegexp (hostPart (normalizeString U self.ToEmail)) = false) ∧
      (ValidateFormat U self).2 ≠ some Error.InvalidDomain := by
  exact ValidateFormat_error_iff U self

/-- C4 at the rejected addresses "@gmail" and "email@gmail" of `TestEmailFormat`. -/
theorem ValidateFormat_error_partition_witness :
    (ValidateFormat latin1 (emailTo "@gmail")).2 = some Error.ErrInvalidUserFormat ∧
      (ValidateFormat latin1 (emailTo "email@gmail")).2 = some Error.ErrInvalidHostFormat :=
  ⟨(ValidateFormat_error_partition latin1 (emailTo "@gmail")).1.mpr (by decide),
   (ValidateFormat_error_partition latin1 (emailTo "email@gmail")).2.1.mpr (by decide)⟩

/-! ## C5 -/

/-- C5, as the code has it: when the normalized input passes the length,
'@'-position and user-part checks and its host has no '.', or fewer than two
runes after its first '.', `ValidateFormat` returns `ErrInvalidHostFormat`. -/
theorem ValidateFormat_host_dot (U : UnicodeData) (self : EmailInfo)
    (hc : userChecks (normalizeString U self.ToEmail))
    (hh : '.' ∉ hostPart (normalizeString U self.ToEmail) ∨
      (afterFirstDot (hostPart (normalizeString U self.ToEmail))).length < 2) :
    (ValidateFormat U self).2 = some Error.ErrInvalidHostFormat := by
  refine (ValidateFormat_error_iff U self).2.1.mpr ⟨hc, ?_⟩
  cases hm : hostRegexp (hostPart (normalizeString U self.ToEmail)) with
  | false => rfl
  | true =>
    obtain ⟨hd, hl⟩ := hostRegexp_dot _ hm
    rcases hh with hh | hh
    · exact absurd hd hh
    · omega

/-- C5 at the address "noemail@gmail.c" of `TestEmailFormat`. -/
theorem ValidateFormat_host_dot_witness :
    userChecks (normalizeString latin1 (emailTo "noemail@gmail.c").ToEmail) ∧
      (afterFirstDot (hostPart (normalizeString latin1
        (emailTo "noemail@gmail.c").ToEmail))).length < 2 ∧
      (ValidateFormat latin1 (emailTo "noemail@gmail.c")).2 = some Error.ErrInvalidHostFormat :=
  ⟨by decide, by decide,
   ValidateFormat_host_dot latin1 (emailTo "noemail@gmail.c") (by decide) (Or.inr (by decide))⟩

/-- C5 as stated fails: "user@a.b.c" passes the length, '@'-position and
user-part checks, the text after the last '.' of its host is the single rune "c",
and `ValidateFormat` returns nil. -/
theorem ValidateFormat_short_tld_accepted :
    userChecks (normalizeString latin1 (emailTo "user@a.b.c").ToEmail) ∧
      afterLastDot (hostPart (normalizeString latin1 (emailTo "user@a.b.c").ToEmail)) = ['c'] ∧
      (ValidateFormat latin1 (emailTo "user@a.b.c")).2 = none := by
  decide

/-! ## C7 -/

/-- C7: whenever `ValidateFormat` returns nil, neither `User` nor `Host`
contains '@', so that `Normalized` contains exactly one '@'. -/
theorem ValidateFormat_one_at (U : UnicodeData) (self : EmailInfo)
    (h : (ValidateFormat U self).2 = none) :
    '@' ∉ (ValidateFormat U self).1.User ∧ '@' ∉ (ValidateFormat U self).1.Host ∧
      (ValidateFormat U self).1.Normalized.count '@' = 1 := by
  obtain ⟨⟨h1, h2, _, _, h5⟩, _⟩ := ValidateFormat_accept U self h
  obtain ⟨eU, eH⟩ := ValidateFormat_parts U self h1 h2
  obtain ⟨e, hn, _⟩ := atCheck_split _ h2
  have hu : '@' ∉ userPart (normalizeString U self.ToEmail) := by
    intro hmem
    have := ((userRegexp_iff _).mp h5).2 _ hmem
    rw [userClass_at] at this
    exact Bool.noConfusion this
  rw [ValidateFormat_Normalized, eU, eH]
  refine ⟨hu, hn, ?_⟩
  rw [e, List.count_append, List.count_cons_self, List.count_eq_zero_of_not_mem hu,
    List.count_eq_zero_of_not_mem hn]

/-- C7 at the accepted address ".syl@gmail.com" of `TestEmailFormat`. -/
theorem ValidateFormat_one_at_witness :
    (ValidateFormat latin1 (emailTo ".syl@gmail.com")).2 = none ∧
      ('@' ∉ (ValidateFormat latin1 (emailTo ".syl@gmail.com")).1.User ∧
        '@' ∉ (ValidateFormat latin1 (emailTo ".syl@gmail.com")).1.Host ∧
        (ValidateFormat latin1 (emailTo ".syl@gmail.com")).1.Normalized.count '@' = 1) :=
  ⟨by decide, ValidateFormat_one_at latin1 (emailTo ".syl@gmail.com") (by decide)⟩

/-! ## C8 -/

/-- C8, as the code has it: whenever `ValidateFormat` returns nil, `Host`
contains none of the five runes of the pattern class `\s`: tab, line feed, form
feed, carriage return and space. -/
theorem ValidateFormat_host_noSpace (U : UnicodeData) (self : EmailInfo)
    (h : (ValidateFormat U self).2 = none) :
    ∀ c ∈ (ValidateFormat U self).1.Host, reSpace c = false := by
  obtain ⟨⟨h1, h2, _⟩, h6⟩ := ValidateFormat_accept U self h
  rw [(ValidateFormat_parts U self h1 h2).2]
  exact hostRegexp_noSpace _ h6

/-- C8, as the code has it, at the accepted address "user@mail.example.com". -/
theorem ValidateFormat_host_noSpace_witness :
    (ValidateFormat latin1 (emailTo "user@mail.example.com")).2 = none ∧
      ∀ c ∈ (ValidateFormat latin1 (emailTo "user@mail.example.com")).1.Host,
        reSpace c = false :=
  ⟨by decide, ValidateFormat_host_noSpace latin1 (emailTo "user@mail.example.com") (by decide)⟩

/-- C8 as stated fails: "user@a\vb.com" (with a vertical tab, U+000B, in the
host) is accepted, and the vertical tab, a rune of `unicode.IsSpace`, is in `Host`. -/
theorem ValidateFormat_host_vertical_tab :
    (ValidateFormat latin1 (emailTo "user@a\x0bb.com")).2 = none ∧
      (ValidateFormat latin1 (emailTo "user@a\x0bb.com")).1.Host = "a\x0bb.com".toList ∧
      isSpace (Char.ofNat 0x0B) = true ∧
      Char.ofNat 0x0B ∈ (ValidateFormat latin1 (emailTo "user@a\x0bb.com")).1.Host := by
  decide

/-! ## C9 -/

/-- C9: whenever `ValidateFormat` returns nil, `Normalized` has 6 to 254 bytes,
`User` 1 to 64 bytes and `Host` 3 bytes or more; and an input whose normalized
form, split at its last '@', breaks one of these bounds (or has no '@' at all) is
rejected with `ErrInvalidUserFormat`. -/
theorem ValidateFormat_bounds (U : UnicodeData) (self : EmailInfo) :
    ((ValidateFormat U self).2 = none →
        6 ≤ len (ValidateFormat U self).1.Normalized ∧
        len (ValidateFormat U self).1.Normalized ≤ 254 ∧
        1 ≤ len (ValidateFormat U self).1.User ∧ len (ValidateFormat U self).1.User ≤ 64 ∧
        3 ≤ len (ValidateFormat U self).1.Host) ∧
      (∀ u h : List Char, normalizeString U self.ToEmail = u ++ ['@'] ++ h → '@' ∉ h →
        (len (u ++ ['@'] ++ h) < 6 ∨ 254 < len (u ++ ['@'] ++ h) ∨ len u < 1 ∨ 64 < len u ∨
          len h < 3) →
        (ValidateFormat U self).2 = some Error.ErrInvalidUserFormat) ∧
      ('@' ∉ normalizeString U self.ToEmail →
        (ValidateFormat U self).2 = some Error.ErrInvalidUserFormat) := by
  refine ⟨?_, ?_, ?_⟩
  · intro h
    obtain ⟨⟨h1, h2, h3, _⟩, _⟩ := ValidateFormat_accept U self h
    obtain ⟨eU, eH⟩ := ValidateFormat_parts U self h1 h2
    obtain ⟨_, _, _, hu, hh, _⟩ := atCheck_split _ h2
    rw [ValidateFormat_Normalized, eU, eH]
    unfold lengthCheck at h1
    unfold userLengthCheck at h3
    omega
  · intro u h e hn hv
    refine (ValidateFormat_error_iff U self).1.mpr ?_
    rw [e]
    have e' : u ++ ['@'] ++ h = u ++ '@' :: h := by simp
    rw [e'] at hv ⊢
    obtain ⟨eu, _⟩ := parts_split u h hn
    have hl := LastIndex_split '@' u h hn
    have hlen : len (u ++ '@' :: h) = len u + 1 + len h := by
      rw [len_append]; simp [len, runeLen_at]; omega
    rintro ⟨h1, h2, h3, _⟩
    unfold lengthCheck at h1
    unfold atCheck at h2
    unfold userLengthCheck at h3
    rw [eu] at h3
    rw [hl] at h2
    omega
  · intro hn
    refine (ValidateFormat_error_iff U self).1.mpr ?_
    rintro ⟨_, h2, _⟩
    unfold atCheck at h2
    obtain ⟨u, h, e, _, _⟩ := LastIndex_nonneg '@' _ (show 0 ≤ LastIndex '@' (normalizeString U self.ToEmail) by omega)
    exact hn (by rw [e]; simp)

/-- C9 at the accepted address "r0.syl@gmail.com", and at "a@b.c", whose
normalized form has 5 bytes and is rejected with `ErrInvalidUserFormat`. -/
theorem ValidateFormat_bounds_witness :
    (6 ≤ len (ValidateFormat latin1 (emailTo "r0.syl@gmail.com")).1.Normalized ∧
        len (ValidateFormat latin1 (emailTo "r0.syl@gmail.com")).1.Normalized ≤ 254 ∧
        1 ≤ len (ValidateFormat latin1 (emailTo "r0.syl@gmail.com")).1.User ∧
        len (ValidateFormat latin1 (emailTo "r0.syl@gmail.com")).1.User ≤ 64 ∧
        3 ≤ len (ValidateFormat latin1 (emailTo "r0.syl@gmail.com")).1.Host) ∧
      (ValidateFormat latin1 (emailTo "a@b.c")).2 = some Error.ErrInvalidUserFormat :=
  ⟨(ValidateFormat_bounds latin1 (emailTo "r0.syl@gmail.com")).1 (by decide),
   (ValidateFormat_bounds latin1 (emailTo "a@b.c")).2.1 ['a'] ['b', '.', 'c'] (by decide)
    (by decide) (Or.inl (by decide))⟩

/-! ## Normalization forms on inert text -/

theorem toNat_ofNat_small (n : Nat) (h : n < 0xD800) : (Char.ofNat n).toNat = n := by
  have hv : n.isValidChar := Or.inl h
  unfold Char.ofNat
  rw [dif_pos hv]
  unfold Char.ofNatAux Char.toNat
  simp only [UInt32.toNat]
  show (UInt32.ofNat' n _).val.val = n
  rfl

theorem mem_insertOrdered (U : UnicodeData) (c x : Char) :
    ∀ acc : List Char, x ∈ insertOrdered U c acc ↔ x = c ∨ x ∈ acc := by
  intro acc
  induction acc with
  | nil => simp [insertOrdered]
  | cons d rest ih =>
    unfold insertOrdered
    split_ifs
    · simp only [List.mem_cons, ih]; tauto
    · simp

/-- Canonical ordering only moves marks of a non-zero class, so it does not
change what a filter keeps when the filter keeps starters only. -/
theorem filter_insertOrdered (U : UnicodeData) (p : Char → Bool) (c : Char) :
    ∀ acc : List Char, (∀ x ∈ c :: acc, p x = true → U.ccc x = 0) →
      (insertOrdered U c acc).filter p = (c :: acc).filter p := by
  intro acc
  induction acc with
  | nil => intro _; rfl
  | cons d rest ih =>
    intro h
    unfold insertOrdered
    split_ifs with hc
    · have hpc : p c = false := by
        cases hp : p c with
        | false => rfl
        | true => exact absurd (h c (by simp) hp) hc.1
      have hpd : p d = false := by
        cases hp : p d with
        | false => rfl
        | true => have := h d (by simp) hp; omega
      have ih' := ih (fun x hx hp => h x (by
        rcases List.mem_cons.mp hx with h1 | h1
        · simp [h1]
        · simp [h1]) hp)
      simp only [List.filter_cons, hpc, hpd, Bool.false_eq_true, if_false] at ih' ⊢
      exact ih'
    · rfl

theorem filter_canonicalOrder (U : UnicodeData) (p : Char → Bool) :
    ∀ l acc : List Char, (∀ x ∈ l ++ acc, p x = true → U.ccc x = 0) →
      (canonicalOrder U l acc).filter p = (l.filter p).reverse ++ acc.filter p := by
  intro l
  induction l with
  | nil => intro acc _; simp [canonicalOrder]
  | cons c cs ih =>
    intro acc h
    unfold canonicalOrder
    rw [ih (insertOrdered U c acc), filter_insertOrdered U p c acc]
    · simp only [List.filter_cons]
      split_ifs <;> simp
    · intro x hx; exact h x (by
        rcases List.mem_cons.mp hx with h1 | h1
        · simp [h1]
        · simp [h1])
    · intro x hx
      apply h
      rcases List.mem_append.mp hx with h1 | h1
      · simp [h1]
      · rcases (mem_insertOrdered U c x acc).mp h1 with h2 | h2
        · simp [h2]
        · simp [h2]

/-- What a starters-only filter keeps of the NFD form of a text. -/
theorem filter_NFD (U : UnicodeData) (p : Char → Bool) (s : List Char)
    (h : ∀ x ∈ s.flatMap U.decomp, p x = true → U.ccc x = 0) :
    (NFD U s).filter p = (s.flatMap U.decomp).filter p := by
  unfold NFD
  rw [List.filter_reverse, filter_canonicalOrder U p _ [] (by simpa using h)]
  simp

theorem insertOrdered_starter (U : UnicodeData) (c : Char) (hc : U.ccc c = 0)
    (acc : List Char) : insertOrdered U c acc = c :: acc := by
  cases acc with
  | nil => rfl
  | cons d rest => simp [insertOrdered, hc]

theorem canonicalOrder_starters (U : UnicodeData) :
    ∀ l acc : List Char, (∀ x ∈ l, U.ccc x = 0) → canonicalOrder U l acc = l.reverse ++ acc := by
  intro l
  induction l with
  | nil => intro acc _; rfl
  | cons c cs ih =>
    intro acc h
    unfold canonicalOrder
    rw [insertOrdered_starter U c (h c (by simp)), ih _ (fun x hx => h x (by simp [hx]))]
    simp

theorem flatMap_decomp_ascii (U : UnicodeData) (hU : AsciiInert U) :
    ∀ s : List Char, (∀ x ∈ s, x.toNat < 0x80) → s.flatMap U.decomp = s := by
  intro s
  induction s with
  | nil => intro _; rfl
  | cons c cs ih =>
    intro h
    rw [List.flatMap_cons, (hU c (h c (by simp))).1, ih (fun x hx => h x (by simp [hx]))]
    rfl

/-- ASCII text is in the form NFD. -/
theorem NFD_ascii (U : UnicodeData) (hU : AsciiInert U) (s : List Char)
    (h : ∀ x ∈ s, x.toNat < 0x80) : NFD U s = s := by
  unfold NFD
  rw [flatMap_decomp_ascii U hU s h,
    canonicalOrder_starters U s [] (fun x hx => (hU x (h x hx)).2.1)]
  simp

theorem composeLoop_ascii (U : UnicodeData) (hU : AsciiInert U) :
    ∀ (rest done : List Char) (starter : Char) (k : Nat),
      (∀ x ∈ rest, x.toNat < 0x80) → starter.toNat < 0x80 →
      composeLoop U rest done starter [] k = done ++ starter :: rest := by
  intro rest
  induction rest with
  | nil => intro done starter k _ _; rfl
  | cons ch rest ih =>
    intro done starter k h hs
    have hch := hU ch (h ch (by simp))
    unfold composeLoop
    rw [hch.2.2.2 starter hs]
    simp only [hch.2.1, if_true]
    rw [ih _ ch 0 (fun x hx => h x (by simp [hx])) (h ch (by simp))]
    simp

/-- ASCII text is in the form NFC. -/
theorem NFC_ascii (U : UnicodeData) (hU : AsciiInert U) (s : List Char)
    (h : ∀ x ∈ s, x.toNat < 0x80) : NFC U s = s := by
  unfold NFC
  rw [NFD_ascii U hU s h]
  cases s with
  | nil => rfl
  | cons c cs =>
    simp only
    rw [composeLoop_ascii U hU cs [] c _ (fun x hx => h x (by simp [hx])) (h c (by simp))]
    rfl

/-- The transformer chain leaves ASCII text unchanged. -/
theorem stripMarks_ascii (U : UnicodeData) (hU : AsciiInert U) (s : List Char)
    (h : ∀ x ∈ s, x.toNat < 0x80) : stripMarks U s = s := by
  unfold stripMarks
  rw [NFD_ascii U hU s h]
  have e : s.filter (fun r => !U.isMn r) = s := by
    rw [List.filter_eq_self]
    intro x hx
    simp [(hU x (h x hx)).2.2.1]
  rw [e, NFC_ascii U hU s h]

theorem isAsciiLetter_lt (b : Char) (h : isAsciiLetter b = true) : b.toNat < 0x80 := by
  unfold isAsciiLetter at h
  simp only [Bool.or_eq_true, Bool.and_eq_true, decide_eq_true_eq] at h
  omega

/-- The shape of the decomposition of a rune of the input class of C10. -/
theorem decomp_of_class (U : UnicodeData) (hU : AsciiInert U) (c : Char)
    (h : c.toNat < 0x80 ∨ isPrecomposed U c = true) :
    ∃ marks, U.decomp c = baseOf U c :: marks ∧ (baseOf U c).toNat < 0x80 ∧
      ∀ m ∈ marks, U.isMn m = true := by
  rcases h with h | h
  · refine ⟨[], ?_, ?_, by simp⟩
    · simp [baseOf, (hU c h).1]
    · simpa [baseOf, (hU c h).1] using h
  · unfold isPrecomposed at h
    unfold baseOf
    cases hd : U.decomp c with
    | nil => rw [hd] at h; exact absurd h (by simp)
    | cons b marks =>
      rw [hd] at h
      simp only [Bool.and_eq_true, List.all_eq_true] at h
      exact ⟨marks, rfl, isAsciiLetter_lt b h.1, h.2⟩

/-- On the input class of C10 the decomposed text, without its marks, is the text
of the bases. -/
theorem filter_flatMap_decomp (U : UnicodeData) (hU : AsciiInert U) :
    ∀ s : List Char, (∀ c ∈ s, c.toNat < 0x80 ∨ isPrecomposed U c = true) →
      (s.flatMap U.decomp).filter (fun r => !U.isMn r) = s.map (baseOf U) ∧
      ∀ x ∈ s.flatMap U.decomp, (!U.isMn x) = true → U.ccc x = 0 := by
  intro s
  induction s with
  | nil => intro _; simp
  | cons c cs ih =>
    intro h
    obtain ⟨marks, hd, hb, hm⟩ := decomp_of_class U hU c (h c (by simp))
    obtain ⟨ih1, ih2⟩ := ih (fun x hx => h x (by simp [hx]))
    have hbase := hU (baseOf U c) hb
    have hfm : marks.filter (fun r => !U.isMn r) = [] := by
      rw [List.filter_eq_nil_iff]
      intro m hmem
      simp [hm m hmem]
    constructor
    · rw [List.flatMap_cons, List.filter_append, ih1, hd, List.filter_cons, hfm]
      simp [hbase.2.2.1]
    · intro x hx hp
      rw [List.flatMap_cons, hd] at hx
      rcases List.mem_append.mp hx with h1 | h1
      · rcases List.mem_cons.mp h1 with h2 | h2
        · rw [h2]; exact hbase.2.1
        · rw [hm x h2] at hp; exact absurd hp (by simp)
      · exact ih2 x h1 hp

/-- On the input class of C10 the transformer chain replaces every rune by its base. -/
theorem stripMarks_class (U : UnicodeData) (hU : AsciiInert U) (s : List Char)
    (h : ∀ c ∈ s, c.toNat < 0x80 ∨ isPrecomposed U c = true) :
    stripMarks U s = s.map (baseOf U) ∧ ∀ x ∈ s.map (baseOf U), x.toNat < 0x80 := by
  obtain ⟨h1, h2⟩ := filter_flatMap_decomp U hU s h
  have hascii : ∀ x ∈ s.map (baseOf U), x.toNat < 0x80 := by
    intro x hx
    obtain ⟨c, hc, rfl⟩ := List.mem_map.mp hx
    obtain ⟨_, _, hb, _⟩ := decomp_of_class U hU c (h c hc)
    exact hb
  refine ⟨?_, hascii⟩
  unfold stripMarks
  rw [filter_NFD U _ s h2, h1, NFC_ascii U hU _ hascii]

/-! ## Trimming and lower-casing -/

theorem mem_TrimLeftFunc (f : Char → Bool) (s : List Char) (x : Char)
    (h : x ∈ TrimLeftFunc f s) : x ∈ s :=
  (List.dropWhile_sublist f).subset h

theorem mem_TrimRightFunc (f : Char → Bool) (s : List Char) (x : Char)
    (h : x ∈ TrimRightFunc f s) : x ∈ s := by
  unfold TrimRightFunc at h
  rw [List.mem_reverse] at h
  exact List.mem_reverse.mp ((List.dropWhile_sublist f).subset h)

/-- Every rune left by the three trimming steps was in the text. -/
theorem mem_trims (s : List Char) (x : Char)
    (h : x ∈ TrimLeft (TrimRight (TrimSpace s) ['.']) ['.']) : x ∈ s := by
  unfold TrimLeft TrimRight TrimSpace at h
  exact mem_TrimLeftFunc _ _ _ (mem_TrimRightFunc _ _ _ (mem_TrimRightFunc _ _ _
    (mem_TrimLeftFunc _ _ _ h)))

theorem toLowerRune_ascii (U : UnicodeData) (c : Char) (h : c.toNat < 0x80) :
    (toLowerRune U c).toNat < 0x80 := by
  unfold toLowerRune
  rw [if_pos h]
  split_ifs with hu
  · rw [toNat_ofNat_small _ (by omega)]; omega
  · exact h

theorem asciiInert_latin1 : AsciiInert latin1 := by
  intro c hc
  refine ⟨?_, ?_, ?_, ?_⟩
  · show (if c.toNat < 0xC0 then [c] else _) = [c]
    rw [if_pos (by omega)]
  · show (if c.toNat < 0x300 then 0 else _) = 0
    rw [if_pos (by omega)]
  · show (decide (0x300 ≤ c.toNat) && decide (c.toNat ≤ 0x36F)) = false
    simp; omega
  · intro a _
    show (if c.toNat < 0x300 then none else _) = none
    rw [if_pos (by omega)]

/-! ## C10 -/

/-- C10: on an input made only of ASCII runes and of precomposed letters whose
canonical decomposition is an ASCII letter followed by marks of the category Mn,
`normalizeString` returns what trimming whitespace, trailing dots and leading
dots and lower-casing make of the input with every such letter replaced by its
ASCII base letter; the result contains no rune of the category Mn.  (ASCII is
inert in the Unicode tables.) -/
theorem normalizeString_strips (U : UnicodeData) (hU : AsciiInert U) (s : List Char)
    (hs : ∀ c ∈ s, c.toNat < 0x80 ∨ isPrecomposed U c = true) :
    normalizeString U s =
        ToLower U (TrimLeft (TrimRight (TrimSpace (s.map (baseOf U))) ['.']) ['.']) ∧
      ∀ c ∈ normalizeString U s, U.isMn c = false := by
  obtain ⟨e, hascii⟩ := stripMarks_class U hU s hs
  have h1 : normalizeString U s =
      ToLower U (TrimLeft (TrimRight (TrimSpace (s.map (baseOf U))) ['.']) ['.']) := by
    unfold normalizeString
    rw [e]
  refine ⟨h1, ?_⟩
  intro c hc
  rw [h1] at hc
  unfold ToLower at hc
  obtain ⟨d, hd, rfl⟩ := List.mem_map.mp hc
  exact (hU _ (toLowerRune_ascii U d (hascii d (mem_trims _ d hd)))).2.2.1

/-- C10 at the two addresses with diacritics of `TestNormalizeString`. -/
theorem normalizeString_strips_witness :
    normalizeString latin1 "Roc\u00edo.sylvester@gmail.com".toList =
        "rocio.sylvester@gmail.com".toList ∧
      normalizeString latin1 "\u00d1o\u00f1o@gmail.com".toList = "nono@gmail.com".toList ∧
      ∀ c ∈ normalizeString latin1 "\u00d1o\u00f1o@gmail.com".toList, latin1.isMn c = false :=
  ⟨(normalizeString_strips latin1 asciiInert_latin1 "Roc\u00edo.sylvester@gmail.com".toList
      (by decide)).1.trans (by decide),
   (normalizeString_strips latin1 asciiInert_latin1 "\u00d1o\u00f1o@gmail.com".toList
      (by decide)).1.trans (by decide),
   (normalizeString_strips latin1 asciiInert_latin1 "\u00d1o\u00f1o@gmail.com".toList
      (by decide)).2⟩

/-! ## C6 -/

theorem toLowerRune_not_capital (U : UnicodeData) (hL : LowerNoCapital U) (d : Char) :
    ¬ (0x41 ≤ (toLowerRune U d).toNat ∧ (toLowerRune U d).toNat ≤ 0x5A) := by
  unfold toLowerRune
  split_ifs with h1 h2
  · rw [toNat_ofNat_small _ (by omega)]; omega
  · exact h2
  · exact hL d (by omega)

theorem lowerUserClass_of_userClass (c : Char) (h : userClass c = true)
    (hc : ¬ (0x41 ≤ c.toNat ∧ c.toNat ≤ 0x5A)) : lowerUserClass c = true := by
  unfold userClass at h
  unfold lowerUserClass
  simp only [Bool.or_eq_true, Bool.and_eq_true, decide_eq_true_eq] at h ⊢
  rcases h with ((h | h) | h) | h
  · exact Or.inl (Or.inl h)
  · exact absurd h hc
  · exact Or.inl (Or.inr h)
  · exact Or.inr h

theorem lowerNoCapital_latin1 : LowerNoCapital latin1 := by
  intro c hc
  show ¬ (0x41 ≤ (if 0xC0 ≤ c.toNat ∧ c.toNat ≤ 0xDE ∧ c.toNat ≠ 0xD7 then
      Char.ofNat (c.toNat + 0x20) else c).toNat ∧
    (if 0xC0 ≤ c.toNat ∧ c.toNat ≤ 0xDE ∧ c.toNat ≠ 0xD7 then
      Char.ofNat (c.toNat + 0x20) else c).toNat ≤ 0x5A)
  split_ifs with h
  · rw [toNat_ofNat_small _ (by omega)]; omega
  · omega

/-- C6, as the code has it: whenever `ValidateFormat` returns nil, `Normalized`
is `User`, '@', `Host`; every rune of `User` lies in
`[a-z0-9!#$%&'*+/=?^_\x60\x7b|\x7d~.-]`, so `User` is lower-case ASCII; and no
rune of `Host` is a rune of the pattern class `\s`, an ASCII capital or '@'.
(Lower-casing a rune above U+007F never gives an ASCII capital.) -/
theorem ValidateFormat_charset (U : UnicodeData) (hL : LowerNoCapital U) (self : EmailInfo)
    (h : (ValidateFormat U self).2 = none) :
    (ValidateFormat U self).1.Normalized =
        (ValidateFormat U self).1.User ++ '@' :: (ValidateFormat U self).1.Host ∧
      (∀ c ∈ (ValidateFormat U self).1.User, lowerUserClass c = true) ∧
      ∀ c ∈ (ValidateFormat U self).1.Host,
        reSpace c = false ∧ ¬ (0x41 ≤ c.toNat ∧ c.toNat ≤ 0x5A) ∧ c ≠ '@' := by
  obtain ⟨⟨h1, h2, _, _, h5⟩, h6⟩ := ValidateFormat_accept U self h
  obtain ⟨eU, eH⟩ := ValidateFormat_parts U self h1 h2
  obtain ⟨e, hat, _⟩ := atCheck_split _ h2
  have hlow : ∀ c ∈ normalizeString U self.ToEmail,
      ¬ (0x41 ≤ c.toNat ∧ c.toNat ≤ 0x5A) := by
    intro c hc
    unfold normalizeString ToLower at hc
    obtain ⟨d, _, rfl⟩ := List.mem_map.mp hc
    exact toLowerRune_not_capital U hL d
  rw [eU, eH, ValidateFormat_Normalized]
  refine ⟨e, ?_, ?_⟩
  · intro c hc
    exact lowerUserClass_of_userClass c (((userRegexp_iff _).mp h5).2 c hc)
      (hlow c (by rw [e]; simp [hc]))
  · intro c hc
    exact ⟨hostRegexp_noSpace _ h6 c hc, hlow c (by rw [e]; simp [hc]),
      fun he => hat (he ▸ hc)⟩

/-- C6, as the code has it, at the address "UPPER_EMAIL_IS_INVALID@gmail.com" of
`TestNormalizeString`. -/
theorem ValidateFormat_charset_witness :
    (ValidateFormat latin1 (emailTo "UPPER_EMAIL_IS_INVALID@gmail.com")).2 = none ∧
      (ValidateFormat latin1 (emailTo "UPPER_EMAIL_IS_INVALID@gmail.com")).1.User =
        "upper_email_is_invalid".toList ∧
      (ValidateFormat latin1 (emailTo "UPPER_EMAIL_IS_INVALID@gmail.com")).1.Host =
        "gmail.com".toList ∧
      ((ValidateFormat latin1 (emailTo "UPPER_EMAIL_IS_INVALID@gmail.com")).1.Normalized =
          (ValidateFormat latin1 (emailTo "UPPER_EMAIL_IS_INVALID@gmail.com")).1.User ++
            '@' :: (ValidateFormat latin1 (emailTo "UPPER_EMAIL_IS_INVALID@gmail.com")).1.Host ∧
        (∀ c ∈ (ValidateFormat latin1 (emailTo "UPPER_EMAIL_IS_INVALID@gmail.com")).1.User,
          lowerUserClass c = true) ∧
        ∀ c ∈ (ValidateFormat latin1 (emailTo "UPPER_EMAIL_IS_INVALID@gmail.com")).1.Host,
          reSpace c = false ∧ ¬ (0x41 ≤ c.toNat ∧ c.toNat ≤ 0x5A) ∧ c ≠ '@') :=
  ⟨by decide, by decide, by decide,
   ValidateFormat_charset latin1 lowerNoCapital_latin1
    (emailTo "UPPER_EMAIL_IS_INVALID@gmail.com") (by decide)⟩

/-- C6 as stated fails: "user@ex(ample).com" and "user@straße.de" are accepted,
with a host that holds '(' in the one and the non-ASCII letter U+00DF in the
other, neither of which is in the class the claim gives. -/
theorem ValidateFormat_host_outside_class :
    (ValidateFormat latin1 (emailTo "user@ex(ample).com")).2 = none ∧
      '(' ∈ (ValidateFormat latin1 (emailTo "user@ex(ample).com")).1.Normalized ∧
      addressClass '(' = false ∧
      (ValidateFormat latin1 (emailTo "user@stra\u00dfe.de")).2 = none ∧
      Char.ofNat 0xDF ∈ (ValidateFormat latin1 (emailTo "user@stra\u00dfe.de")).1.Host ∧
      addressClass (Char.ofNat 0xDF) = false := by
  decide

/-! ## Trimming: fixed points and lower-casing -/

theorem TrimLeftFunc_sublist (f : Char → Bool) (s : List Char) :
    List.Sublist (TrimLeftFunc f s) s :=
  List.dropWhile_sublist f

theorem TrimRightFunc_sublist (f : Char → Bool) (s : List Char) :
    List.Sublist (TrimRightFunc f s) s := by
  unfold TrimRightFunc
  rw [← List.reverse_sublist, List.reverse_reverse]
  exact List.dropWhile_sublist f

theorem TrimSpace_sublist (s : List Char) : List.Sublist (TrimSpace s) s :=
  (TrimRightFunc_sublist _ _).trans (TrimLeftFunc_sublist _ _)

/-- A text is unchanged by `TrimLeftFunc` exactly when it does not start with a
rune of the class. -/
theorem TrimLeftFunc_eq_self (f : Char → Bool) (s : List Char) :
    TrimLeftFunc f s = s ↔ noLeading f s = true := by
  unfold TrimLeftFunc noLeading
  cases s with
  | nil => simp
  | cons c cs =>
    simp only [List.head?_cons]
    cases hc : f c with
    | false => simp [List.dropWhile, hc]
    | true =>
      simp only [List.dropWhile, hc, Bool.not_true, Bool.false_eq_true, iff_false]
      intro h
      have := (List.dropWhile_sublist f (l := cs)).length_le
      rw [h] at this
      simp at this

/-- A text is unchanged by `TrimRightFunc` exactly when it does not end with a
rune of the class. -/
theorem TrimRightFunc_eq_self (f : Char → Bool) (s : List Char) :
    TrimRightFunc f s = s ↔ noTrailing f s = true := by
  have h := TrimLeftFunc_eq_self f s.reverse
  unfold TrimLeftFunc noLeading at h
  unfold TrimRightFunc noTrailing
  rw [List.head?_reverse] at h
  rw [← h]
  constructor
  · intro e
    have := congrArg List.reverse e
    rwa [List.reverse_reverse] at this
  · intro e; rw [e, List.reverse_reverse]

/-- A text is unchanged by `TrimSpace` exactly when it neither starts nor ends
with a whitespace rune. -/
theorem TrimSpace_eq_self (s : List Char) :
    TrimSpace s = s ↔ noLeading isSpace s = true ∧ noTrailing isSpace s = true := by
  constructor
  · intro h
    have h1 : TrimLeftFunc isSpace s = s := by
      apply (TrimLeftFunc_sublist isSpace s).eq_of_length
      have a := (TrimRightFunc_sublist isSpace (TrimLeftFunc isSpace s)).length_le
      have b := (TrimLeftFunc_sublist isSpace s).length_le
      unfold TrimSpace at h
      rw [h] at a
      omega
    have h2 : TrimRightFunc isSpace s = s := by
      unfold TrimSpace at h
      rw [h1] at h
      exact h
    exact ⟨(TrimLeftFunc_eq_self _ _).mp h1, (TrimRightFunc_eq_self _ _).mp h2⟩
  · rintro ⟨h1, h2⟩
    unfold TrimSpace
    rw [(TrimLeftFunc_eq_self _ _).mpr h1, (TrimRightFunc_eq_self _ _).mpr h2]

theorem noLeading_TrimLeftFunc (f : Char → Bool) (s : List Char) :
    noLeading f (TrimLeftFunc f s) = true := by
  rw [← TrimLeftFunc_eq_self]
  unfold TrimLeftFunc
  exact List.dropWhile_idempotent f s

theorem noTrailing_TrimRightFunc (f : Char → Bool) (s : List Char) :
    noTrailing f (TrimRightFunc f s) = true := by
  rw [← TrimRightFunc_eq_self]
  unfold TrimRightFunc
  rw [List.reverse_reverse, List.dropWhile_idempotent f]

theorem getLast?_dropWhile (g : Char → Bool) (c : Char) :
    ∀ s : List Char, (s.dropWhile g).getLast? = some c → s.getLast? = some c := by
  intro s
  induction s with
  | nil => simp
  | cons a as ih =>
    simp only [List.dropWhile]
    cases hg : g a with
    | false => simp
    | true =>
      simp only
      intro h
      have h' := ih h
      cases as with
      | nil => simp at h'
      | cons b bs => simpa [List.getLast?_cons_cons] using h'

/-- Trimming on the left does not bring a rune of the class `f` to the end. -/
theorem noTrailing_TrimLeftFunc (f g : Char → Bool) (s : List Char)
    (h : noTrailing f s = true) : noTrailing f (TrimLeftFunc g s) = true := by
  unfold noTrailing at h ⊢
  cases hl : (TrimLeftFunc g s).getLast? with
  | none => rfl
  | some c =>
    rw [getLast?_dropWhile g c s hl] at h
    exact h

/-- After the two dot-trimming steps a text neither starts nor ends with a dot. -/
theorem dots_trimmed (t : List Char) :
    TrimRight (TrimLeft (TrimRight t ['.']) ['.']) ['.'] = TrimLeft (TrimRight t ['.']) ['.'] ∧
      TrimLeft (TrimLeft (TrimRight t ['.']) ['.']) ['.'] = TrimLeft (TrimRight t ['.']) ['.'] := by
  unfold TrimLeft TrimRight
  exact ⟨(TrimRightFunc_eq_self _ _).mpr
      (noTrailing_TrimLeftFunc _ _ _ (noTrailing_TrimRightFunc _ _)),
    (TrimLeftFunc_eq_self _ _).mpr (noLeading_TrimLeftFunc _ _)⟩

theorem dropWhile_map_congr (f : Char → Bool) (L : Char → Char) :
    ∀ y : List Char, (∀ x ∈ y, f (L x) = f x) →
      (y.map L).dropWhile f = (y.dropWhile f).map L := by
  intro y
  induction y with
  | nil => intro _; rfl
  | cons a as ih =>
    intro h
    simp only [List.map_cons, List.dropWhile, h a (by simp)]
    cases f a with
    | false => simp
    | true => simpa using ih (fun x hx => h x (by simp [hx]))

theorem TrimLeftFunc_map (f : Char → Bool) (L : Char → Char) (y : List Char)
    (h : ∀ x ∈ y, f (L x) = f x) : TrimLeftFunc f (y.map L) = (TrimLeftFunc f y).map L :=
  dropWhile_map_congr f L y h

theorem TrimRightFunc_map (f : Char → Bool) (L : Char → Char) (y : List Char)
    (h : ∀ x ∈ y, f (L x) = f x) : TrimRightFunc f (y.map L) = (TrimRightFunc f y).map L := by
  unfold TrimRightFunc
  rw [← List.map_reverse, dropWhile_map_congr f L y.reverse (fun x hx => h x (by simpa using hx)),
    List.map_reverse]

/-- The three trimming steps commute with a rune map that respects the two classes. -/
theorem trims_map (L : Char → Char) (y : List Char)
    (h1 : ∀ x ∈ y, isSpace (L x) = isSpace x)
    (h2 : ∀ x ∈ y, ['.'].contains (L x) = ['.'].contains x) :
    TrimLeft (TrimRight (TrimSpace (y.map L)) ['.']) ['.'] =
      (TrimLeft (TrimRight (TrimSpace y) ['.']) ['.']).map L := by
  unfold TrimLeft TrimRight TrimSpace
  rw [TrimLeftFunc_map _ L y h1,
    TrimRightFunc_map _ L _ (fun x hx => h1 x (mem_TrimLeftFunc _ _ _ hx)),
    TrimRightFunc_map _ L _ (fun x hx => h2 x (mem_TrimLeftFunc _ _ _ (mem_TrimRightFunc _ _ _ hx))),
    TrimLeftFunc_map _ L _ (fun x hx => h2 x (mem_TrimLeftFunc _ _ _ (mem_TrimRightFunc _ _ _
      (mem_TrimRightFunc _ _ _ hx))))]

theorem isSpace_toLowerRune (U : UnicodeData) (c : Char) (h : c.toNat < 0x80) :
    isSpace (toLowerRune U c) = isSpace c := by
  unfold toLowerRune
  rw [if_pos h]
  split_ifs with hu
  · have e := toNat_ofNat_small (c.toNat + 0x20) (by omega)
    have h1 : isSpace (Char.ofNat (c.toNat + 0x20)) = false := by
      unfold isSpace
      simp only [e, Bool.or_eq_false_iff, Bool.and_eq_false_iff, decide_eq_false_iff_not]
      omega
    have h2 : isSpace c = false := by
      unfold isSpace
      simp only [Bool.or_eq_false_iff, Bool.and_eq_false_iff, decide_eq_false_iff_not]
      omega
    rw [h1, h2]
  · rfl

theorem toNat_dot : '.'.toNat = 0x2E := by decide

theorem contains_dot_toLowerRune (U : UnicodeData) (c : Char) (h : c.toNat < 0x80) :
    ['.'].contains (toLowerRune U c) = ['.'].contains c := by
  unfold toLowerRune
  rw [if_pos h]
  split_ifs with hu
  · have e := toNat_ofNat_small (c.toNat + 0x20) (by omega)
    have h1 : Char.ofNat (c.toNat + 0x20) ≠ '.' := by
      intro he; rw [he, toNat_dot] at e; omega
    have h2 : c ≠ '.' := by
      intro he; rw [he, toNat_dot] at hu; omega
    simp [h1, h2]
  · rfl

theorem toLowerRune_idem (U : UnicodeData) (c : Char) (h : c.toNat < 0x80) :
    toLowerRune U (toLowerRune U c) = toLowerRune U c := by
  have hl := toLowerRune_ascii U c h
  by_cases hu : 0x41 ≤ c.toNat ∧ c.toNat ≤ 0x5A
  · have e : toLowerRune U c = Char.ofNat (c.toNat + 0x20) := by
      unfold toLowerRune; rw [if_pos h, if_pos hu]
    have e2 := toNat_ofNat_small (c.toNat + 0x20) (by omega)
    rw [e]
    unfold toLowerRune
    rw [if_pos (by omega), if_neg (by omega)]
  · have e : toLowerRune U c = c := by
      unfold toLowerRune; rw [if_pos h, if_neg hu]
    rw [e, e]

/-- On ASCII text, `normalizeString` is the three trimming steps followed by
lower-casing, and its result is ASCII. -/
theorem normalizeString_of_ascii (U : UnicodeData) (hU : AsciiInert U) (x : List Char)
    (hx : ∀ c ∈ x, c.toNat < 0x80) :
    normalizeString U x = ToLower U (TrimLeft (TrimRight (TrimSpace x) ['.']) ['.']) ∧
      ∀ c ∈ ToLower U (TrimLeft (TrimRight (TrimSpace x) ['.']) ['.']), c.toNat < 0x80 := by
  constructor
  · unfold normalizeString
    rw [stripMarks_ascii U hU x hx]
  · intro c hc
    unfold ToLower at hc
    obtain ⟨d, hd, rfl⟩ := List.mem_map.mp hc
    exact toLowerRune_ascii U d (hx d (mem_trims _ d hd))

/-- The second pass of `normalizeString` over a text whose mark-stripped form is
ASCII: it trims the trimmed text of the first pass once more. -/
theorem normalizeString_twice (U : UnicodeData) (hU : AsciiInert U) (s : List Char)
    (hs : ∀ c ∈ stripMarks U s, c.toNat < 0x80) :
    normalizeString U (normalizeString U s) =
      ToLower U (TrimLeft (TrimRight (TrimSpace
        (TrimLeft (TrimRight (TrimSpace (stripMarks U s)) ['.']) ['.'])) ['.']) ['.']) := by
  have hy : ∀ c ∈ TrimLeft (TrimRight (TrimSpace (stripMarks U s)) ['.']) ['.'],
      c.toNat < 0x80 := fun c hc => hs c (mem_trims _ c hc)
  have e1 : normalizeString U s =
      (TrimLeft (TrimRight (TrimSpace (stripMarks U s)) ['.']) ['.']).map (toLowerRune U) := rfl
  have hn : ∀ c ∈ normalizeString U s, c.toNat < 0x80 := by
    intro c hc
    rw [e1] at hc
    obtain ⟨d, hd, rfl⟩ := List.mem_map.mp hc
    exact toLowerRune_ascii U d (hy d hd)
  rw [(normalizeString_of_ascii U hU _ hn).1, e1,
    trims_map (toLowerRune U) _ (fun x hx => isSpace_toLowerRune U x (hy x hx))
      (fun x hx => contains_dot_toLowerRune U x (hy x hx))]
  unfold ToLower
  rw [List.map_map]
  apply List.map_congr_left
  intro c hc
  exact toLowerRune_idem U c (hy c (mem_trims _ c hc))

theorem noLeading_map (f : Char → Bool) (L : Char → Char) (y : List Char)
    (h : ∀ x ∈ y, f (L x) = f x) : noLeading f (y.map L) = noLeading f y := by
  unfold noLeading
  cases y with
  | nil => rfl
  | cons a as => simp [h a (by simp)]

theorem noTrailing_map (f : Char → Bool) (L : Char → Char) (y : List Char)
    (h : ∀ x ∈ y, f (L x) = f x) : noTrailing f (y.map L) = noTrailing f y := by
  have := noLeading_map f L y.reverse (fun x hx => h x (by simpa using hx))
  unfold noLeading at this
  unfold noTrailing
  rw [List.map_reverse, List.head?_reverse, List.head?_reverse] at this
  exact this

/-! ## More about the edit distance -/

/-- The run of `levenshteinDistance`: both loops complete, no access is out of
range, and the value returned is `lev`. -/
theorem levenshteinDistance_run {α : Type} [DecidableEq α] (str1 str2 : List α) :
    levenshteinDistance str1 str2 = some (lev str1 str2) := by
  obtain ⟨c0, e0, hl0, h0⟩ := initLoop_spec str1.length
  obtain ⟨c1, e1, h1⟩ := outerLoop_spec str1 str2 c0 hl0 h0
  simp only [levenshteinDistance, e0, e1, Option.bind_eq_bind, Option.some_bind]
  rw [h1 str1.length (Nat.le_refl _), D_full]

/-- The two lengths differ by at most the distance. -/
theorem lev_length_bound {α : Type} [DecidableEq α] (a : List α) :
    ∀ b : List α, a.length ≤ lev a b + b.length ∧ b.length ≤ lev a b + a.length := by
  induction a with
  | nil => intro b; simp [lev_nil_left]
  | cons x a iha =>
    intro b
    induction b with
    | nil => simp [lev_nil_right]
    | cons y b ihb =>
      have h1 := iha (y :: b)
      have h2 := iha b
      rw [lev_cons_cons]
      simp only [List.length_cons] at h1 h2 ihb ⊢
      generalize (if x = y then 0 else 1) = d
      omega

/-- The distance is zero exactly between equal sequences. -/
theorem lev_eq_zero_iff {α : Type} [DecidableEq α] (a : List α) :
    ∀ b : List α, lev a b = 0 ↔ a = b := by
  induction a with
  | nil =>
    intro b
    rw [lev_nil_left]
    constructor
    · intro h; exact (List.length_eq_zero.mp h).symm
    · intro h; rw [← h]; rfl
  | cons x a iha =>
    intro b
    cases b with
    | nil => rw [lev_nil_right]; simp
    | cons y b =>
      rw [lev_cons_cons]
      have h2 := iha b
      by_cases hxy : x = y
      · simp only [hxy, if_true, Nat.add_zero, List.cons.injEq, true_and]
        rw [← h2]
        omega
      · simp only [hxy, if_false, List.cons.injEq, false_and, iff_false]
        omega

/-- The distance is symmetric. -/
theorem lev_comm {α : Type} [DecidableEq α] (a : List α) :
    ∀ b : List α, lev a b = lev b a := by
  induction a with
  | nil => intro b; rw [lev_nil_left, lev_nil_right]
  | cons x a iha =>
    intro b
    induction b with
    | nil => rw [lev_nil_left, lev_nil_right]
    | cons y b ihb =>
      rw [lev_cons_cons, lev_cons_cons, iha (y :: b), ihb, iha b]
      have e : (if x = y then 0 else 1) = (if y = x then 0 else 1) :=
        if_congr eq_comm rfl rfl
      rw [e]
      generalize (if y = x then 0 else 1) = d
      omega

/-! ## C14 -/

/-- C14: the value returned by `levenshteinDistance` is at least the difference
of the two lengths, so a candidate whose length differs from the host's by more
than a threshold `T` is at a distance greater than `T`. -/
theorem levenshteinDistance_ge_length_diff {α : Type} [DecidableEq α] (str1 str2 : List α) :
    ∃ d, levenshteinDistance str1 str2 = some d ∧
      ((str1.length : Int) - (str2.length : Int)).natAbs ≤ d ∧
      ∀ T : Nat, T < ((str1.length : Int) - (str2.length : Int)).natAbs → T < d := by
  have h := lev_length_bound str1 str2
  have hb : ((str1.length : Int) - (str2.length : Int)).natAbs ≤ lev str1 str2 := by omega
  exact ⟨lev str1 str2, levenshteinDistance_run str1 str2, hb, fun T hT => by omega⟩

/-- C14 at the host "gmail.com" and the candidate "gmail.co.uk.example": the
lengths differ by 10, more than the threshold 2, and so does the distance. -/
theorem levenshteinDistance_ge_length_diff_witness :
    ∃ d, levenshteinDistance "gmail.com".toList "gmail.co.uk.example".toList = some d ∧
      10 ≤ d ∧ 2 < d := by
  obtain ⟨d, h1, h2, h3⟩ :=
    levenshteinDistance_ge_length_diff "gmail.com".toList "gmail.co.uk.example".toList
  exact ⟨d, h1, by simpa using h2, h3 2 (by decide)⟩

/-! ## C15 -/

/-- C15: `levenshteinDistance` returns 0 exactly when its two arguments are equal. -/
theorem levenshteinDistance_eq_zero_iff {α : Type} [DecidableEq α] (str1 str2 : List α) :
    levenshteinDistance str1 str2 = some 0 ↔ str1 = str2 := by
  rw [levenshteinDistance_run, Option.some.injEq]
  exact lev_eq_zero_iff str1 str2

/-- C15 at the test vector of `TestLDistance`: "r0.syl@gmail.com" against itself. -/
theorem levenshteinDistance_eq_zero_iff_witness :
    levenshteinDistance "r0.syl@gmail.com".toList "r0.syl@gmail.com".toList = some 0 ∧
      levenshteinDistance "gmail.com".toList "gmai.com".toList ≠ some 0 :=
  ⟨(levenshteinDistance_eq_zero_iff _ _).mpr rfl,
   fun h => absurd ((levenshteinDistance_eq_zero_iff _ _).mp h) (by decide)⟩

/-! ## C19 -/

/-- C19: `levenshteinDistance` is symmetric, although the working column is sized
by the first argument and the outer loop runs over the second. -/
theorem levenshteinDistance_comm {α : Type} [DecidableEq α] (str1 str2 : List α) :
    levenshteinDistance str1 str2 = levenshteinDistance str2 str1 := by
  rw [levenshteinDistance_run, levenshteinDistance_run, lev_comm]

/-- C19 at "hello" and "ello": both orders give 1. -/
theorem levenshteinDistance_comm_witness :
    levenshteinDistance "hello".toList "ello".toList = some 1 ∧
      levenshteinDistance "ello".toList "hello".toList = some 1 :=
  ⟨by decide, (levenshteinDistance_comm "ello".toList "hello".toList).trans (by decide)⟩

/-! ## C20 -/

/-- C20: `levenshteinDistance` is total and index-safe: on every pair of rune
sequences both loops run to completion with every access to `column`, `str1` and
`str2` in range, and a value is returned; with an empty first argument the value
is the length of the second, and with an empty second argument the length of the
first. -/
theorem levenshteinDistance_total {α : Type} [DecidableEq α] (str1 str2 : List α) :
    (∃ d, levenshteinDistance str1 str2 = some d) ∧
      levenshteinDistance [] str2 = some str2.length ∧
      levenshteinDistance str1 [] = some str1.length := by
  refine ⟨⟨_, levenshteinDistance_run str1 str2⟩, ?_, ?_⟩
  · rw [levenshteinDistance_run, lev_nil_left]
  · rw [levenshteinDistance_run, lev_nil_right]

/-- C20 at the empty sequence against "kitten", both ways, and against itself. -/
theorem levenshteinDistance_total_witness :
    levenshteinDistance ([] : List Char) "kitten".toList = some 6 ∧
      levenshteinDistance "kitten".toList ([] : List Char) = some 6 ∧
      levenshteinDistance ([] : List Char) [] = some 0 :=
  ⟨(levenshteinDistance_total ([] : List Char) "kitten".toList).2.1,
   (levenshteinDistance_total "kitten".toList ([] : List Char)).2.2,
   (levenshteinDistance_total ([] : List Char) []).2.1⟩

/-! ## C13 -/

/-- The case analysis behind `ValidateHost`. -/
theorem validateHost_aux (A B : Prop) [Decidable A] [Decidable B] (m i : Option NetError) :
    ((if A ∨ B then some Error.InvalidDomain
        else if m ≠ none ∧ i ≠ none then some Error.InvalidDomain else none) = none ↔
        (¬ A ∧ ¬ B) ∧ (m = none ∨ i = none)) ∧
      (A ∨ B →
        (if A ∨ B then some Error.InvalidDomain
          else if m ≠ none ∧ i ≠ none then some Error.InvalidDomain else none) =
          some Error.InvalidDomain) ∧
      (¬ A ∧ ¬ B →
        ((if A ∨ B then some Error.InvalidDomain
          else if m ≠ none ∧ i ≠ none then some Error.InvalidDomain else none) =
          some Error.InvalidDomain ↔ m ≠ none ∧ i ≠ none)) ∧
      ((if A ∨ B then some Error.InvalidDomain
          else if m ≠ none ∧ i ≠ none then some Error.InvalidDomain else none) = none ∨
        (if A ∨ B then some Error.InvalidDomain
          else if m ≠ none ∧ i ≠ none then some Error.InvalidDomain else none) =
          some Error.InvalidDomain) := by
  by_cases hA : A <;> by_cases hB : B <;> cases m <;> cases i <;> simp [hA, hB]

/-- C13: with the two DNS lookups as given results, `ValidateHost` returns nil
exactly when `Host` is neither "localhost" nor "example.com" and one of the MX
lookup and the IP lookup succeeded; on the two sentinel hosts it returns
`InvalidDomain` whatever the lookups give, on any other host it returns
`InvalidDomain` exactly when both lookups failed, and it returns no other error. -/
theorem ValidateHost_spec (net : Net) (self : EmailInfo) :
    (ValidateHost net self = none ↔
        (self.Host ≠ "localhost".toList ∧ self.Host ≠ "example.com".toList) ∧
          (net.LookupMX self.Host = none ∨ net.LookupIP self.Host = none)) ∧
      (self.Host = "localhost".toList ∨ self.Host = "example.com".toList →
        ValidateHost net self = some Error.InvalidDomain) ∧
      (self.Host ≠ "localhost".toList ∧ self.Host ≠ "example.com".toList →
        (ValidateHost net self = some Error.InvalidDomain ↔
          net.LookupMX self.Host ≠ none ∧ net.LookupIP self.Host ≠ none)) ∧
      (ValidateHost net self = none ∨ ValidateHost net self = some Error.InvalidDomain) := by
  unfold ValidateHost
  exact validateHost_aux _ _ _ _

/-- C13 at "gmail.com" with only the IP lookup succeeding (nil), at "localhost"
under the same results, and at "gmail.com" with both lookups failing. -/
theorem ValidateHost_spec_witness :
    ValidateHost gmailDNS { emailTo "" with Host := "gmail.com".toList } = none ∧
      ValidateHost gmailDNS { emailTo "" with Host := "localhost".toList } =
        some Error.InvalidDomain ∧
      ValidateHost noDNS { emailTo "" with Host := "gmail.com".toList } =
        some Error.InvalidDomain :=
  ⟨(ValidateHost_spec gmailDNS { emailTo "" with Host := "gmail.com".toList }).1.mpr
      ⟨⟨by decide, by decide⟩, Or.inr (by decide)⟩,
   (ValidateHost_spec gmailDNS { emailTo "" with Host := "localhost".toList }).2.1
      (Or.inl rfl),
   ((ValidateHost_spec noDNS { emailTo "" with Host := "gmail.com".toList }).2.2.1
      ⟨by decide, by decide⟩).mpr ⟨by decide, by decide⟩⟩

/-! ## C11 -/

/-- The run of `Fix` after a format check that did not return `ErrInvalidUserFormat`. -/
theorem Fix_continues (U : UnicodeData) (net : Net)
    (check : List Char → List Char → CheckResult) (fromEmail toEmail : List Char)
    (h : (ValidateFormat U (newEmailInfo fromEmail toEmail)).2 ≠
      some Error.ErrInvalidUserFormat) :
    (Fix U net check fromEmail toEmail).1 =
      [Event.ValidateHost (ValidateFormat U (newEmailInfo fromEmail toEmail)).1.Host] ++
        (if ValidateHost net (ValidateFormat U (newEmailInfo fromEmail toEmail)).1 ≠ none
          then [Event.TryFixHost (ValidateFormat U (newEmailInfo fromEmail toEmail)).1.Host]
          else []) ++
        [Event.Check fromEmail toEmail] ++ report (check fromEmail toEmail) := by
  unfold Fix
  dsimp only
  generalize ValidateFormat U (newEmailInfo fromEmail toEmail) = r at h ⊢
  rw [if_neg h]
  by_cases hv : ValidateHost net r.1 ≠ none
  · simp only [if_pos hv]; rfl
  · simp only [if_neg hv]; rfl

/-- The run of `Fix` after a format check that returned `ErrInvalidUserFormat`. -/
theorem Fix_stops (U : UnicodeData) (net : Net)
    (check : List Char → List Char → CheckResult) (fromEmail toEmail : List Char)
    (h : (ValidateFormat U (newEmailInfo fromEmail toEmail)).2 = some Error.ErrInvalidUserFormat) :
    (Fix U net check fromEmail toEmail).1 = [] := by
  unfold Fix
  dsimp only
  generalize ValidateFormat U (newEmailInfo fromEmail toEmail) = r at h ⊢
  rw [if_pos h]

/-- C11, as the code has it: when `ValidateFormat` returns `ErrInvalidUserFormat`,
`Fix` stops there: no call of `ValidateHost`, of `TryFixHost` or of `mailck.Check`,
and nothing printed.  When it returns `ErrInvalidHostFormat`, `Fix` goes on: it
calls `ValidateHost` on the host it split off, `TryFixHost` when that fails, and
then `mailck.Check`, and prints the outcome. -/
theorem Fix_format_errors (U : UnicodeData) (net : Net)
    (check : List Char → List Char → CheckResult) (fromEmail toEmail : List Char) :
    ((ValidateFormat U (newEmailInfo fromEmail toEmail)).2 = some Error.ErrInvalidUserFormat →
      (Fix U net check fromEmail toEmail).1 = []) ∧
    ((ValidateFormat U (newEmailInfo fromEmail toEmail)).2 = some Error.ErrInvalidHostFormat →
      (Fix U net check fromEmail toEmail).1 =
        [Event.ValidateHost (ValidateFormat U (newEmailInfo fromEmail toEmail)).1.Host] ++
          (if ValidateHost net (ValidateFormat U (newEmailInfo fromEmail toEmail)).1 ≠ none
            then [Event.TryFixHost (ValidateFormat U (newEmailInfo fromEmail toEmail)).1.Host]
            else []) ++
          [Event.Check fromEmail toEmail] ++ report (check fromEmail toEmail)) := by
  refine ⟨Fix_stops U net check fromEmail toEmail, fun h => ?_⟩
  exact Fix_continues U net check fromEmail toEmail (by rw [h]; simp)

/-- C11, as the code has it, at "@gmail" (user format error: nothing is done) and
at "noemail@gmail.c" (host format error: the host is looked up all the same). -/
theorem Fix_format_errors_witness :
    (Fix latin1 noDNS probeInvalid "me@example.org".toList "@gmail".toList).1 = [] ∧
      (Fix latin1 noDNS probeInvalid "me@example.org".toList "noemail@gmail.c".toList).1 =
        [Event.ValidateHost "gmail.c".toList, Event.TryFixHost "gmail.c".toList,
         Event.Check "me@example.org".toList "noemail@gmail.c".toList,
         Event.Println "mailbox unavailable".toList] :=
  ⟨(Fix_format_errors latin1 noDNS probeInvalid "me@example.org".toList "@gmail".toList).1
      (by decide),
   ((Fix_format_errors latin1 noDNS probeInvalid "me@example.org".toList
      "noemail@gmail.c".toList).2 (by decide)).trans (by decide)⟩

/-- C11 as stated fails: on "email@gmail" `ValidateFormat` returns
`ErrInvalidHostFormat`, and `Fix` calls `ValidateHost`, `TryFixHost` and
`mailck.Check` all the same. -/
theorem Fix_goes_on_after_host_error :
    (ValidateFormat latin1 (newEmailInfo "me@example.org".toList "email@gmail".toList)).2 =
        some Error.ErrInvalidHostFormat ∧
      (Fix latin1 noDNS probeInvalid "me@example.org".toList "email@gmail".toList).1 =
        [Event.ValidateHost "gmail".toList, Event.TryFixHost "gmail".toList,
         Event.Check "me@example.org".toList "email@gmail".toList,
         Event.Println "mailbox unavailable".toList] := by
  decide

/-! ## C12 -/

/-- The body of `TryFixHost` is `return nil`: it reports no error and leaves the
address record, `Host` included, as it was; so the record that `Fix` ends with is
the one that `ValidateFormat` left, whatever the DNS results. -/
theorem TryFixHost_unchanged (self : EmailInfo) :
    (TryFixHost self).1 = self ∧ (TryFixHost self).2 = none ∧
      ∀ (U : UnicodeData) (net : Net) (check : List Char → List Char → CheckResult)
        (fromEmail toEmail : List Char),
        (Fix U net check fromEmail toEmail).2 =
          (ValidateFormat U (newEmailInfo fromEmail toEmail)).1 := by
  refine ⟨rfl, rfl, ?_⟩
  intro U net check fromEmail toEmail
  unfold Fix
  dsimp only
  generalize ValidateFormat U (newEmailInfo fromEmail toEmail) = r
  simp only [TryFixHost]
  split_ifs <;> rfl

/-- C12, what the code does where the claim and the comments of mailfix.go ("TryFixHost
ententa corregir el host", "try to fix hosts") call for a repair: for the host
"gmai.com" resolution fails, the known domain "gmail.com" is at distance 1, `Fix`
calls `TryFixHost`, and yet `TryFixHost`, and `Fix` as a whole, leave `Host` at
"gmai.com". -/
theorem TryFixHost_no_repair :
    ValidateHost noDNS { emailTo "user@gmai.com" with Host := "gmai.com".toList } =
        some Error.InvalidDomain ∧
      levenshteinDistance "gmai.com".toList "gmail.com".toList = some 1 ∧
      (TryFixHost { emailTo "user@gmai.com" with Host := "gmai.com".toList }).1.Host =
        "gmai.com".toList ∧
      Event.TryFixHost "gmai.com".toList ∈
        (Fix latin1 noDNS probeInvalid "me@example.org".toList "user@gmai.com".toList).1 ∧
      (Fix latin1 noDNS probeInvalid "me@example.org".toList "user@gmai.com".toList).2.Host =
        "gmai.com".toList := by
  decide

/-! ## The corpus builder -/

theorem mem_keys_mapIncr (txt k : String) :
    ∀ m : List (String × Nat),
      k ∈ (mapIncr m txt).map Prod.fst ↔ k = txt ∨ k ∈ m.map Prod.fst := by
  intro m
  induction m with
  | nil => simp [mapIncr]
  | cons e rest ih =>
    obtain ⟨k', v⟩ := e
    unfold mapIncr
    split_ifs with h
    · subst h
      simp only [List.map_cons, List.mem_cons]
      tauto
    · simp only [List.map_cons, List.mem_cons, ih]
      tauto

theorem nodup_keys_mapIncr (txt : String) :
    ∀ m : List (String × Nat), (m.map Prod.fst).Nodup → ((mapIncr m txt).map Prod.fst).Nodup := by
  intro m
  induction m with
  | nil => intro _; simp [mapIncr]
  | cons e rest ih =>
    obtain ⟨k', v⟩ := e
    intro h
    simp only [List.map_cons, List.nodup_cons] at h
    unfold mapIncr
    split_ifs with hk
    · simpa [List.nodup_cons] using h
    · simp only [List.map_cons, List.nodup_cons]
      refine ⟨?_, ih h.2⟩
      rw [mem_keys_mapIncr]
      intro hc
      rcases hc with hc | hc
      · exact hk hc
      · exact h.1 hc

/-- The keys of the map after one file: still distinct, and the old keys
together with the lines of the file. -/
theorem keys_scanFile (lines : List String) :
    ∀ m : List (String × Nat), (m.map Prod.fst).Nodup →
      ((scanFile m lines).map Prod.fst).Nodup ∧
        ∀ k, k ∈ (scanFile m lines).map Prod.fst ↔ k ∈ m.map Prod.fst ∨ k ∈ lines := by
  induction lines with
  | nil => intro m h; simpa [scanFile] using h
  | cons l ls ih =>
    intro m h
    obtain ⟨h1, h2⟩ := ih (mapIncr m l) (nodup_keys_mapIncr l m h)
    refine ⟨h1, fun k => ?_⟩
    have := h2 k
    unfold scanFile at this ⊢
    rw [List.foldl_cons, this, mem_keys_mapIncr, List.mem_cons]
    tauto

/-- The keys of the map after all files: distinct, and exactly the lines read. -/
theorem keys_scanFiles_from (files : List (List String)) :
    ∀ m : List (String × Nat), (m.map Prod.fst).Nodup →
      ((files.foldl scanFile m).map Prod.fst).Nodup ∧
        ∀ k, k ∈ (files.foldl scanFile m).map Prod.fst ↔
          k ∈ m.map Prod.fst ∨ ∃ f ∈ files, k ∈ f := by
  induction files with
  | nil => intro m h; simpa using h
  | cons f fs ih =>
    intro m h
    obtain ⟨h1, h2⟩ := keys_scanFile f m h
    obtain ⟨h3, h4⟩ := ih (scanFile m f) h1
    refine ⟨h3, fun k => ?_⟩
    rw [List.foldl_cons, h4, h2]
    simp only [List.mem_cons, exists_eq_or_imp]
    tauto

/-! ## C16 -/

/-- C16: with the input files given as lists of lines, the lines that the
builder writes are pairwise distinct, and a line is written exactly when it was
read from one of the input files. -/
theorem Writes_dedup (files : List (List String)) (out : List String)
    (h : Writes files out) :
    out.Nodup ∧ ∀ line, line ∈ out ↔ ∃ f ∈ files, line ∈ f := by
  obtain ⟨h1, h2⟩ := keys_scanFiles_from files [] (by simp)
  unfold Writes at h
  refine ⟨h.nodup_iff.mpr h1, fun line => ?_⟩
  rw [h.mem_iff]
  have := h2 line
  simp only [List.map_nil, List.not_mem_nil, false_or] at this
  exact this

/-- C16 at two files that share the line "b.com", for an output order that is
not the order of reading. -/
theorem Writes_dedup_witness :
    Writes [["a.com", "b.com"], ["b.com", "c.com"]] ["c.com", "a.com", "b.com"] ∧
      (["c.com", "a.com", "b.com"].Nodup ∧
        ∀ line, line ∈ ["c.com", "a.com", "b.com"] ↔
          ∃ f ∈ [["a.com", "b.com"], ["b.com", "c.com"]], line ∈ f) :=
  ⟨by decide, Writes_dedup [["a.com", "b.com"], ["b.com", "c.com"]] ["c.com", "a.com", "b.com"]
    (by decide)⟩

/-! ## More about trimming -/

theorem dropWhile_append_singleton (f : Char → Bool) (c : Char) :
    ∀ l : List Char, (l ++ [c]).dropWhile f =
      if l.dropWhile f = [] then (if f c = true then [] else [c]) else l.dropWhile f ++ [c] := by
  intro l
  induction l with
  | nil => simp [List.dropWhile]; cases f c <;> simp
  | cons a l ih =>
    cases ha : f a with
    | true => simpa [List.dropWhile, ha] using ih
    | false => simp [List.dropWhile, ha]

/-- Trimming on the right a text with one more rune in front. -/
theorem TrimRightFunc_cons (f : Char → Bool) (c : Char) (t : List Char) :
    TrimRightFunc f (c :: t) =
      if TrimRightFunc f t = [] then (if f c = true then [] else [c])
      else c :: TrimRightFunc f t := by
  unfold TrimRightFunc
  rw [List.reverse_cons, dropWhile_append_singleton]
  by_cases h : List.dropWhile f t.reverse = []
  · simp only [h, if_true, List.reverse_nil]
    split_ifs <;> simp
  · simp [h]

/-- A leading rune of the class goes away when the text is trimmed of the class
on both sides. -/
theorem TrimLeftFunc_TrimRightFunc_cons (f : Char → Bool) (c : Char) (t : List Char)
    (hc : f c = true) :
    TrimLeftFunc f (TrimRightFunc f (c :: t)) = TrimLeftFunc f (TrimRightFunc f t) := by
  rw [TrimRightFunc_cons]
  by_cases h : TrimRightFunc f t = []
  · simp [h, hc, TrimLeftFunc]
  · simp [h, hc, TrimLeftFunc, List.dropWhile]

theorem isSpace_dot : isSpace '.' = false := by decide

/-- `TrimSpace` leaves a leading dot in place when no whitespace follows it. -/
theorem TrimSpace_dot_cons (s : List Char) (h0 : noLeading isSpace s = true) :
    TrimSpace ('.' :: s) = '.' :: TrimSpace s := by
  unfold TrimSpace
  have e1 : TrimLeftFunc isSpace ('.' :: s) = '.' :: s := by
    simp [TrimLeftFunc, List.dropWhile, isSpace_dot]
  rw [e1, (TrimLeftFunc_eq_self isSpace s).mpr h0, TrimRightFunc_cons]
  simp [isSpace_dot]

/-- A leading dot that no whitespace follows does not change what the three
trimming steps give. -/
theorem trims_dot_cons (s : List Char) (h0 : noLeading isSpace s = true) :
    TrimLeft (TrimRight (TrimSpace ('.' :: s)) ['.']) ['.'] =
      TrimLeft (TrimRight (TrimSpace s) ['.']) ['.'] := by
  rw [TrimSpace_dot_cons s h0]
  unfold TrimLeft TrimRight
  exact TrimLeftFunc_TrimRightFunc_cons _ '.' _ (by decide)

theorem head?_TrimRightFunc (g : Char → Bool) (c : Char) (s : List Char)
    (h : (TrimRightFunc g s).head? = some c) : s.head? = some c := by
  unfold TrimRightFunc at h
  rw [List.head?_reverse] at h
  have := getLast?_dropWhile g c s.reverse h
  rwa [List.getLast?_reverse] at this

/-- Trimming on the right does not bring a rune of the class `f` to the front. -/
theorem noLeading_TrimRightFunc (f g : Char → Bool) (s : List Char)
    (h : noLeading f s = true) : noLeading f (TrimRightFunc g s) = true := by
  unfold noLeading at h ⊢
  cases hl : (TrimRightFunc g s).head? with
  | none => rfl
  | some c =>
    rw [head?_TrimRightFunc g c s hl] at h
    exact h

/-- The text left by `TrimSpace` neither starts nor ends with whitespace. -/
theorem TrimSpace_trimmed (s : List Char) :
    noLeading isSpace (TrimSpace s) = true ∧ noTrailing isSpace (TrimSpace s) = true := by
  unfold TrimSpace
  exact ⟨noLeading_TrimRightFunc _ _ _ (noLeading_TrimLeftFunc _ _),
    noTrailing_TrimRightFunc _ _⟩

theorem noLeading_map_of_imp (f g : Char → Bool) (L : Char → Char) (y : List Char)
    (h : ∀ x ∈ y, f x = false → g (L x) = false) (hy : noLeading f y = true) :
    noLeading g (y.map L) = true := by
  unfold noLeading at hy ⊢
  cases y with
  | nil => rfl
  | cons a as =>
    simp only [List.head?_cons, Bool.not_eq_true'] at hy
    simp only [List.map_cons, List.head?_cons, Bool.not_eq_true']
    exact h a (by simp) hy

theorem noTrailing_map_of_imp (f g : Char → Bool) (L : Char → Char) (y : List Char)
    (h : ∀ x ∈ y, f x = false → g (L x) = false) (hy : noTrailing f y = true) :
    noTrailing g (y.map L) = true := by
  have := noLeading_map_of_imp f g L y.reverse (fun x hx => h x (by simpa using hx))
  unfold noLeading at this
  unfold noTrailing at hy ⊢
  rw [List.map_reverse, List.head?_reverse, List.head?_reverse] at this
  exact this hy

/-! ## C18 -/

/-- `ValidateFormat` looks at `ToEmail` only through `normalizeString`. -/
theorem ValidateFormat_congr (U : UnicodeData) (e1 e2 : EmailInfo)
    (hn : normalizeString U e1.ToEmail = normalizeString U e2.ToEmail)
    (hu : e1.User = e2.User) (hh : e1.Host = e2.Host) :
    (ValidateFormat U e1).2 = (ValidateFormat U e2).2 ∧
      (ValidateFormat U e1).1.Normalized = (ValidateFormat U e2).1.Normalized ∧
      (ValidateFormat U e1).1.User = (ValidateFormat U e2).1.User ∧
      (ValidateFormat U e1).1.Host = (ValidateFormat U e2).1.Host := by
  unfold ValidateFormat
  dsimp only
  rw [hn]
  generalize normalizeString U e2.ToEmail = n
  split_ifs <;> exact ⟨rfl, rfl, by first | rfl | exact hu, by first | rfl | exact hh⟩

/-- C18: for every ASCII text `s` that does not start with whitespace,
`ValidateFormat` on `ToEmail = "." + s` returns the error it returns on
`ToEmail = s`, and leaves the same `Normalized`, `User` and `Host`.  (ASCII is
inert in the Unicode tables.) -/
theorem ValidateFormat_leading_dot (U : UnicodeData) (hU : AsciiInert U) (self : EmailInfo)
    (s : List Char) (hs : ∀ c ∈ s, c.toNat < 0x80) (h0 : noLeading isSpace s = true) :
    (ValidateFormat U { self with ToEmail := '.' :: s }).2 =
        (ValidateFormat U { self with ToEmail := s }).2 ∧
      (ValidateFormat U { self with ToEmail := '.' :: s }).1.Normalized =
        (ValidateFormat U { self with ToEmail := s }).1.Normalized ∧
      (ValidateFormat U { self with ToEmail := '.' :: s }).1.User =
        (ValidateFormat U { self with ToEmail := s }).1.User ∧
      (ValidateFormat U { self with ToEmail := '.' :: s }).1.Host =
        (ValidateFormat U { self with ToEmail := s }).1.Host := by
  have hs' : ∀ c ∈ '.' :: s, c.toNat < 0x80 := by
    intro c hc
    rcases List.mem_cons.mp hc with h | h
    · rw [h, toNat_dot]; omega
    · exact hs c h
  have hn : normalizeString U ('.' :: s) = normalizeString U s := by
    rw [(normalizeString_of_ascii U hU _ hs').1, (normalizeString_of_ascii U hU _ hs).1,
      trims_dot_cons s h0]
  exact ValidateFormat_congr U { self with ToEmail := '.' :: s } { self with ToEmail := s }
    hn rfl rfl

/-- C18 at ".syl@gmail.com" and "syl@gmail.com" of `TestEmailFormat`: both are
accepted, with the same three fields. -/
theorem ValidateFormat_leading_dot_witness :
    (ValidateFormat latin1 (emailTo ".syl@gmail.com")).2 = none ∧
      (ValidateFormat latin1 (emailTo "syl@gmail.com")).2 = none ∧
      (ValidateFormat latin1 { emailTo "" with ToEmail := '.' :: "syl@gmail.com".toList }).2 =
        (ValidateFormat latin1 { emailTo "" with ToEmail := "syl@gmail.com".toList }).2 ∧
      (ValidateFormat latin1 { emailTo "" with ToEmail := '.' :: "syl@gmail.com".toList }).1.User =
        (ValidateFormat latin1 { emailTo "" with ToEmail := "syl@gmail.com".toList }).1.User :=
  ⟨by decide, by decide,
   (ValidateFormat_leading_dot latin1 asciiInert_latin1 (emailTo "") "syl@gmail.com".toList
      (by decide) (by decide)).1,
   (ValidateFormat_leading_dot latin1 asciiInert_latin1 (emailTo "") "syl@gmail.com".toList
      (by decide) (by decide)).2.2.1⟩

/-! ## Normalization forms on inert text, in general -/

theorem mem_canonicalOrder (U : UnicodeData) (x : Char) :
    ∀ l acc : List Char, x ∈ canonicalOrder U l acc ↔ x ∈ l ∨ x ∈ acc := by
  intro l
  induction l with
  | nil => intro acc; simp [canonicalOrder]
  | cons c cs ih =>
    intro acc
    unfold canonicalOrder
    rw [ih, mem_insertOrdered, List.mem_cons]
    tauto

theorem mem_NFD (U : UnicodeData) (x : Char) (s : List Char) :
    x ∈ NFD U s ↔ x ∈ s.flatMap U.decomp := by
  unfold NFD
  rw [List.mem_reverse, mem_canonicalOrder]
  simp

theorem flatMap_decomp_inert (U : UnicodeData) :
    ∀ s : List Char, (∀ x ∈ s, Inert U x) → s.flatMap U.decomp = s := by
  intro s
  induction s with
  | nil => intro _; rfl
  | cons c cs ih =>
    intro h
    rw [List.flatMap_cons, (h c (by simp)).1, ih (fun x hx => h x (by simp [hx]))]
    rfl

theorem NFD_inert (U : UnicodeData) (s : List Char) (h : ∀ x ∈ s, Inert U x) :
    NFD U s = s := by
  unfold NFD
  rw [flatMap_decomp_inert U s h,
    canonicalOrder_starters U s [] (fun x hx => (h x hx).2.1)]
  simp

theorem composeLoop_inert (U : UnicodeData) :
    ∀ (rest done : List Char) (starter : Char) (k : Nat), (∀ x ∈ rest, Inert U x) →
      composeLoop U rest done starter [] k = done ++ starter :: rest := by
  intro rest
  induction rest with
  | nil => intro done starter k _; rfl
  | cons ch rest ih =>
    intro done starter k h
    have hch := h ch (by simp)
    unfold composeLoop
    rw [hch.2.2.2 starter]
    simp only [hch.2.1, if_true]
    rw [ih _ ch 0 (fun x hx => h x (by simp [hx]))]
    simp

theorem NFC_inert (U : UnicodeData) (s : List Char) (h : ∀ x ∈ s, Inert U x) :
    NFC U s = s := by
  unfold NFC
  rw [NFD_inert U s h]
  cases s with
  | nil => rfl
  | cons c cs =>
    simp only
    rw [composeLoop_inert U cs [] c _ (fun x hx => h x (by simp [hx]))]
    rfl

/-- The transformer chain leaves inert text unchanged. -/
theorem stripMarks_inert (U : UnicodeData) (s : List Char) (h : ∀ x ∈ s, Inert U x) :
    stripMarks U s = s := by
  unfold stripMarks
  rw [NFD_inert U s h]
  have e : s.filter (fun r => !U.isMn r) = s := by
    rw [List.filter_eq_self]
    intro x hx
    simp [(h x hx).2.2.1]
  rw [e, NFC_inert U s h]

/-! ## The excerpt of the tables satisfies the facts assumed of the library -/

theorem latin1Rows_shape :
    ∀ r ∈ latin1Rows, r.2.1 < 0x80 ∧ 0x300 ≤ r.2.2 ∧ r.2.2 ≤ 0x36F := by
  decide

theorem latin1_lower_rows :
    ∀ n < 0x100, 0xC0 ≤ n → n ≤ 0xDE → n ≠ 0xD7 →
      (latin1Rows.find? (fun r => r.1 = n)).isNone = true →
      (latin1Rows.find? (fun r => r.1 = n + 0x20)).isNone = true := by
  decide

theorem latin1_isMn (c : Char) :
    latin1.isMn c = (decide (0x300 ≤ c.toNat) && decide (c.toNat ≤ 0x36F)) := rfl

theorem latin1_decomp (c : Char) :
    latin1.decomp c =
      if c.toNat < 0xC0 then [c]
      else match latin1Rows.find? (fun r => r.1 = c.toNat) with
        | some r => [Char.ofNat r.2.1, Char.ofNat r.2.2]
        | none => [c] := rfl

/-- In the excerpt, a rune that is its own decomposition and is not a mark is inert. -/
theorem latin1_inert (c : Char) (h1 : latin1.decomp c = [c]) (h2 : latin1.isMn c = false) :
    Inert latin1 c := by
  rw [latin1_isMn] at h2
  simp only [Bool.and_eq_false_iff, decide_eq_false_iff_not] at h2
  refine ⟨h1, ?_, ?_, ?_⟩
  · show (if c.toNat < 0x300 then 0 else if c.toNat = 0x327 then 202
      else if c.toNat ∈ [0x300, 0x301, 0x302, 0x303, 0x308, 0x30A] then 230 else 0) = 0
    split_ifs with a b d
    · rfl
    · omega
    · simp at d; omega
    · rfl
  · rw [latin1_isMn]
    simp only [Bool.and_eq_false_iff, decide_eq_false_iff_not]
    exact h2
  · intro a
    show (if c.toNat < 0x300 then none
      else (latin1Rows.find? (fun r => r.2.1 = a.toNat ∧ r.2.2 = c.toNat)).map
        (fun r => Char.ofNat r.1)) = none
    split_ifs with hlt
    · rfl
    · have hn : latin1Rows.find? (fun r => r.2.1 = a.toNat ∧ r.2.2 = c.toNat) = none := by
        rw [List.find?_eq_none]
        intro r hr
        have := latin1Rows_shape r hr
        simp only [decide_eq_true_eq, not_and]
        intro _ he
        omega
      rw [hn]; rfl

theorem latin1_decomp_small (c : Char) (h : c.toNat < 0xC0) : latin1.decomp c = [c] := by
  rw [latin1_decomp, if_pos h]

/-- In the excerpt, what a decomposition holds besides marks is fully decomposed. -/
theorem latin1_decomp_members (c d : Char) (hd : d ∈ latin1.decomp c)
    (hm : latin1.isMn d = false) : latin1.decomp d = [d] := by
  rw [latin1_decomp] at hd
  by_cases h : c.toNat < 0xC0
  · rw [if_pos h] at hd
    rw [List.mem_singleton.mp hd]
    exact latin1_decomp_small c h
  · rw [if_neg h] at hd
    cases hf : latin1Rows.find? (fun r => r.1 = c.toNat) with
    | none =>
      rw [hf] at hd
      rw [List.mem_singleton.mp hd, latin1_decomp, if_neg h, hf]
    | some r =>
      rw [hf] at hd
      have hr := latin1Rows_shape r (List.mem_of_find?_eq_some hf)
      simp only [List.mem_cons, List.mem_singleton, List.not_mem_nil, or_false] at hd
      rcases hd with hd | hd
      · apply latin1_decomp_small
        rw [hd, toNat_ofNat_small _ (by omega)]
        omega
      · exfalso
        rw [hd, latin1_isMn, toNat_ofNat_small _ (by omega)] at hm
        simp only [Bool.and_eq_false_iff, decide_eq_false_iff_not] at hm
        omega

/-- In the excerpt, the chain returns runes that are their own decomposition and
are not marks. -/
theorem stripMarks_latin1 (s : List Char) :
    ∀ d ∈ stripMarks latin1 s, latin1.decomp d = [d] ∧ latin1.isMn d = false := by
  have hz : ∀ d ∈ (NFD latin1 s).filter (fun r => !latin1.isMn r),
      latin1.decomp d = [d] ∧ latin1.isMn d = false := by
    intro d hd
    rw [List.mem_filter, mem_NFD, List.mem_flatMap] at hd
    obtain ⟨⟨c, _, hdc⟩, hm⟩ := hd
    have hm' : latin1.isMn d = false := by simpa using hm
    exact ⟨latin1_decomp_members c d hdc hm', hm'⟩
  have e : stripMarks latin1 s = (NFD latin1 s).filter (fun r => !latin1.isMn r) := by
    unfold stripMarks
    exact NFC_inert latin1 _ (fun x hx => latin1_inert x (hz x hx).1 (hz x hx).2)
  rw [e]
  exact hz

/-- In the excerpt, lower-casing keeps a rune that is its own decomposition and is
not a mark such a rune. -/
theorem toLowerRune_latin1 (d : Char) (h1 : latin1.decomp d = [d])
    (h2 : latin1.isMn d = false) :
    latin1.decomp (toLowerRune latin1 d) = [toLowerRune latin1 d] ∧
      latin1.isMn (toLowerRune latin1 d) = false := by
  by_cases ha : d.toNat < 0x80
  · have hl := toLowerRune_ascii latin1 d ha
    refine ⟨latin1_decomp_small _ (by omega), ?_⟩
    rw [latin1_isMn]
    simp only [Bool.and_eq_false_iff, decide_eq_false_iff_not]
    omega
  · have e : toLowerRune latin1 d = (if 0xC0 ≤ d.toNat ∧ d.toNat ≤ 0xDE ∧ d.toNat ≠ 0xD7 then
        Char.ofNat (d.toNat + 0x20) else d) := by
      unfold toLowerRune
      rw [if_neg ha]
      rfl
    rw [e]
    split_ifs with hr
    · have et := toNat_ofNat_small (d.toNat + 0x20) (by omega)
      constructor
      · have hnone : latin1Rows.find? (fun r => r.1 = d.toNat) = none := by
          rw [latin1_decomp, if_neg (by omega)] at h1
          cases hf : latin1Rows.find? (fun r => r.1 = d.toNat) with
          | none => rfl
          | some r => rw [hf] at h1; simp at h1
        have := latin1_lower_rows d.toNat (by omega) hr.1 hr.2.1 hr.2.2
          (by rw [hnone]; rfl)
        rw [latin1_decomp, et, if_neg (by omega)]
        cases hf : latin1Rows.find? (fun r => r.1 = d.toNat + 0x20) with
        | none => rfl
        | some r => rw [hf] at this; simp at this
      · rw [latin1_isMn, et]
        simp only [Bool.and_eq_false_iff, decide_eq_false_iff_not]
        omega
    · exact ⟨h1, h2⟩

/-- In the excerpt, a text that the chain leaves unchanged holds only runes that
are their own decomposition and are not marks. -/
theorem stable_latin1 (t : List Char) (h : stripMarks latin1 t = t) :
    ∀ d ∈ t, latin1.decomp d = [d] ∧ latin1.isMn d = false := by
  intro d hd
  rw [← h] at hd
  exact stripMarks_latin1 t d hd

theorem stripStable_latin1 : StripStable latin1 := by
  refine ⟨?_, ?_, ?_⟩
  · intro s
    apply stripMarks_inert
    intro x hx
    obtain ⟨h1, h2⟩ := stripMarks_latin1 s x hx
    exact latin1_inert x h1 h2
  · intro t p hp ht
    apply stripMarks_inert
    intro x hx
    obtain ⟨h1, h2⟩ := stable_latin1 t ht x (hp.subset hx)
    exact latin1_inert x h1 h2
  · intro t ht
    apply stripMarks_inert
    intro x hx
    unfold ToLower at hx
    obtain ⟨d, hd, rfl⟩ := List.mem_map.mp hx
    obtain ⟨h1, h2⟩ := stable_latin1 t ht d hd
    obtain ⟨h3, h4⟩ := toLowerRune_latin1 d h1 h2
    exact latin1_inert _ h3 h4

theorem lowerKeepsClass_latin1 : LowerKeepsClass latin1 := by
  intro c hc
  show (if 0xC0 ≤ c.toNat ∧ c.toNat ≤ 0xDE ∧ c.toNat ≠ 0xD7 then
      Char.ofNat (c.toNat + 0x20) else c) ≠ '.' ∧
    isSpace (if 0xC0 ≤ c.toNat ∧ c.toNat ≤ 0xDE ∧ c.toNat ≠ 0xD7 then
      Char.ofNat (c.toNat + 0x20) else c) = isSpace c
  split_ifs with h
  · have e := toNat_ofNat_small (c.toNat + 0x20) (by omega)
    constructor
    · intro he; rw [he, toNat_dot] at e; omega
    · have h1 : isSpace (Char.ofNat (c.toNat + 0x20)) = false := by
        unfold isSpace
        simp only [e, Bool.or_eq_false_iff, Bool.and_eq_false_iff, decide_eq_false_iff_not]
        omega
      have h2 : isSpace c = false := by
        unfold isSpace
        simp only [Bool.or_eq_false_iff, Bool.and_eq_false_iff, decide_eq_false_iff_not]
        omega
      rw [h1, h2]
  · constructor
    · intro he; rw [he, toNat_dot] at hc; omega
    · rfl

theorem lowerIdem_latin1 : LowerIdem latin1 := by
  intro c hc
  have e : latin1.lower c = (if 0xC0 ≤ c.toNat ∧ c.toNat ≤ 0xDE ∧ c.toNat ≠ 0xD7 then
      Char.ofNat (c.toNat + 0x20) else c) := rfl
  have e2 : ∀ x : Char, 0xDF ≤ x.toNat → toLowerRune latin1 x = x := by
    intro x hx
    unfold toLowerRune
    rw [if_neg (by omega)]
    show (if 0xC0 ≤ x.toNat ∧ x.toNat ≤ 0xDE ∧ x.toNat ≠ 0xD7 then
      Char.ofNat (x.toNat + 0x20) else x) = x
    rw [if_neg (by omega)]
  rw [e]
  split_ifs with h
  · exact e2 _ (by rw [toNat_ofNat_small _ (by omega)]; omega)
  · unfold toLowerRune
    rw [if_neg (by omega)]
    show (if 0xC0 ≤ c.toNat ∧ c.toNat ≤ 0xDE ∧ c.toNat ≠ 0xD7 then
      Char.ofNat (c.toNat + 0x20) else c) = c
    rw [if_neg h]

/-! ## Lower-casing, for every rune -/

theorem isSpace_toLowerRune_all (U : UnicodeData) (hK : LowerKeepsClass U) (c : Char) :
    isSpace (toLowerRune U c) = isSpace c := by
  by_cases h : c.toNat < 0x80
  · exact isSpace_toLowerRune U c h
  · have e : toLowerRune U c = U.lower c := by
      unfold toLowerRune; rw [if_neg h]
    rw [e]
    exact (hK c (by omega)).2

theorem contains_dot_toLowerRune_all (U : UnicodeData) (hK : LowerKeepsClass U) (c : Char) :
    ['.'].contains (toLowerRune U c) = ['.'].contains c := by
  by_cases h : c.toNat < 0x80
  · exact contains_dot_toLowerRune U c h
  · have e : toLowerRune U c = U.lower c := by
      unfold toLowerRune; rw [if_neg h]
    have h1 : U.lower c ≠ '.' := (hK c (by omega)).1
    have h2 : c ≠ '.' := by
      intro he; rw [he, toNat_dot] at h; omega
    rw [e]
    simp [h1, h2]

theorem toLowerRune_idem_all (U : UnicodeData) (hI : LowerIdem U) (c : Char) :
    toLowerRune U (toLowerRune U c) = toLowerRune U c := by
  by_cases h : c.toNat < 0x80
  · exact toLowerRune_idem U c h
  · have e : toLowerRune U c = U.lower c := by
      unfold toLowerRune; rw [if_neg h]
    rw [e]
    exact hI c (by omega)

theorem TrimLeftFunc_part (f : Char → Bool) (s : List Char) :
    List.IsInfix (TrimLeftFunc f s) s :=
  (List.dropWhile_suffix f).isInfix

theorem TrimRightFunc_part (f : Char → Bool) (s : List Char) :
    List.IsInfix (TrimRightFunc f s) s := by
  unfold TrimRightFunc
  have h : List.IsSuffix (s.reverse.dropWhile f) s.reverse := List.dropWhile_suffix f
  have h2 := List.reverse_prefix.mpr h
  rw [List.reverse_reverse] at h2
  exact h2.isInfix

theorem trims_part (s : List Char) :
    List.IsInfix (TrimLeft (TrimRight (TrimSpace s) ['.']) ['.']) s := by
  unfold TrimLeft TrimRight TrimSpace
  exact ((TrimLeftFunc_part _ _).trans (TrimRightFunc_part _ _)).trans
    ((TrimRightFunc_part _ _).trans (TrimLeftFunc_part _ _))

/-- The chain NFD, mark removal, NFC leaves the result of `normalizeString`
unchanged. -/
theorem stripMarks_normalizeString (U : UnicodeData) (hS : StripStable U) (s : List Char) :
    stripMarks U (normalizeString U s) = normalizeString U s := by
  obtain ⟨h1, h2, h3⟩ := hS
  have e1 : normalizeString U s =
      ToLower U (TrimLeft (TrimRight (TrimSpace (stripMarks U s)) ['.']) ['.']) := rfl
  rw [e1]
  exact h3 _ (h2 _ _ (trims_part _) (h1 s))

/-- The second pass of `normalizeString`, for every text: it trims the trimmed
text of the first pass once more. -/
theorem normalizeString_twice_all (U : UnicodeData) (hS : StripStable U)
    (hK : LowerKeepsClass U) (hI : LowerIdem U) (s : List Char) :
    normalizeString U (normalizeString U s) =
      ToLower U (TrimLeft (TrimRight (TrimSpace
        (TrimLeft (TrimRight (TrimSpace (stripMarks U s)) ['.']) ['.'])) ['.']) ['.']) := by
  have e0 : normalizeString U (normalizeString U s) =
      ToLower U (TrimLeft (TrimRight (TrimSpace
        (stripMarks U (normalizeString U s))) ['.']) ['.']) := rfl
  have e1 : normalizeString U s =
      (TrimLeft (TrimRight (TrimSpace (stripMarks U s)) ['.']) ['.']).map (toLowerRune U) := rfl
  rw [e0, stripMarks_normalizeString U hS s, e1,
    trims_map (toLowerRune U) _ (fun x _ => isSpace_toLowerRune_all U hK x)
      (fun x _ => contains_dot_toLowerRune_all U hK x)]
  unfold ToLower
  rw [List.map_map]
  apply List.map_congr_left
  intro c _
  exact toLowerRune_idem_all U hI c

/-! ## C2 -/

/-- C2, as the code has it: for every input, a second pass of `normalizeString`
changes nothing exactly when the result of the first pass neither starts nor ends
with a whitespace rune.  (Facts of the library assumed: the chain NFD, mark
removal, NFC is idempotent, and a contiguous part or the lower-cased form of a
text it leaves unchanged is left unchanged too; lower-casing a rune above U+007F
gives no dot, gives whitespace only from whitespace, and is idempotent.) -/
theorem normalizeString_idempotent_iff (U : UnicodeData) (hS : StripStable U)
    (hK : LowerKeepsClass U) (hI : LowerIdem U) (s : List Char) :
    normalizeString U (normalizeString U s) = normalizeString U s ↔
      noLeading isSpace (normalizeString U s) = true ∧
        noTrailing isSpace (normalizeString U s) = true := by
  have e1 : normalizeString U s =
      (TrimLeft (TrimRight (TrimSpace (stripMarks U s)) ['.']) ['.']).map (toLowerRune U) := rfl
  rw [normalizeString_twice_all U hS hK hI s, e1,
    noLeading_map _ _ _ (fun x _ => isSpace_toLowerRune_all U hK x),
    noTrailing_map _ _ _ (fun x _ => isSpace_toLowerRune_all U hK x),
    ← TrimSpace_eq_self]
  obtain ⟨d1, d2⟩ := dots_trimmed (TrimSpace (stripMarks U s))
  generalize TrimLeft (TrimRight (TrimSpace (stripMarks U s)) ['.']) ['.'] = y at d1 d2 ⊢
  unfold ToLower
  constructor
  · intro h
    have hl := congrArg List.length h
    simp only [List.length_map] at hl
    apply (TrimSpace_sublist y).eq_of_length
    have a := (TrimLeftFunc_sublist (fun c => ['.'].contains c)
      (TrimRight (TrimSpace y) ['.'])).length_le
    have b := (TrimRightFunc_sublist (fun c => ['.'].contains c) (TrimSpace y)).length_le
    have c := (TrimSpace_sublist y).length_le
    unfold TrimLeft at hl
    unfold TrimRight at hl a
    omega
  · intro h
    rw [h, d1, d2]

/-- C2, as the code has it, at " Strasse@X.de. " with the letter U+00DF for "ss"
(not ASCII; idempotent, trimmed result), at " Ab.c@D.e. " and at ". a" (not
idempotent; the result starts with a space). -/
theorem normalizeString_idempotent_iff_witness :
    (normalizeString latin1 (normalizeString latin1 " Straße@X.de. ".toList) =
        normalizeString latin1 " Straße@X.de. ".toList) ∧
      normalizeString latin1 " Straße@X.de. ".toList = "straße@x.de".toList ∧
      (normalizeString latin1 (normalizeString latin1 " Ab.c@D.e. ".toList) =
        normalizeString latin1 " Ab.c@D.e. ".toList) ∧
      noLeading isSpace (normalizeString latin1 ". a".toList) ≠ true :=
  ⟨(normalizeString_idempotent_iff latin1 stripStable_latin1 lowerKeepsClass_latin1
      lowerIdem_latin1 " Straße@X.de. ".toList).mpr ⟨by decide, by decide⟩,
   by decide,
   (normalizeString_idempotent_iff latin1 stripStable_latin1 lowerKeepsClass_latin1
      lowerIdem_latin1 " Ab.c@D.e. ".toList).mpr ⟨by decide, by decide⟩,
   fun h => absurd ((normalizeString_idempotent_iff latin1 stripStable_latin1
      lowerKeepsClass_latin1 lowerIdem_latin1 ". a".toList).mpr ⟨h, by decide⟩) (by decide)⟩

/-- C2 as stated fails: ". a" normalizes to " a" (the dot is trimmed after the
whitespace), and " a" normalizes to "a". -/
theorem normalizeString_not_idempotent :
    normalizeString latin1 ". a".toList = " a".toList ∧
      normalizeString latin1 (normalizeString latin1 ". a".toList) = "a".toList ∧
      normalizeString latin1 (normalizeString latin1 ". a".toList) ≠
        normalizeString latin1 ". a".toList := by
  decide

/-! ## The two dot trims, one after the other -/

theorem TrimLeftFunc_TrimRightFunc_comm (f : Char → Bool) :
    ∀ t : List Char,
      TrimLeftFunc f (TrimRightFunc f t) = TrimRightFunc f (TrimLeftFunc f t) := by
  intro t
  induction t with
  | nil => rfl
  | cons c t ih =>
    by_cases hc : f c = true
    · rw [TrimLeftFunc_TrimRightFunc_cons f c t hc, ih]
      simp [TrimLeftFunc, List.dropWhile, hc]
    · have e : TrimLeftFunc f (c :: t) = c :: t := by
        simp [TrimLeftFunc, List.dropWhile, hc]
      rw [e, TrimRightFunc_cons]
      split_ifs <;> simp [TrimLeftFunc, List.dropWhile, hc]

/-- Trimming on the right keeps the first rune of a text that does not start with
a rune of the class. -/
theorem head?_TrimRightFunc_of_noLeading (f : Char → Bool) (s : List Char)
    (h : noLeading f s = true) : (TrimRightFunc f s).head? = s.head? := by
  cases s with
  | nil => rfl
  | cons c t =>
    have hc : f c = false := by simpa [noLeading] using h
    rw [TrimRightFunc_cons, hc]
    by_cases h2 : TrimRightFunc f t = [] <;> simp [h2]

/-- Trimming on the left keeps the last rune of a text that does not end with a
rune of the class. -/
theorem getLast?_TrimLeftFunc_of_noTrailing (f : Char → Bool) :
    ∀ s : List Char, noTrailing f s = true → (TrimLeftFunc f s).getLast? = s.getLast? := by
  intro s
  induction s with
  | nil => intro _; rfl
  | cons c t ih =>
    intro h
    by_cases hc : f c = true
    · cases t with
      | nil => simp [noTrailing, hc] at h
      | cons d t =>
        have h2 : noTrailing f (d :: t) = true := by
          simpa [noTrailing, List.getLast?_cons_cons] using h
        have e : TrimLeftFunc f (c :: d :: t) = TrimLeftFunc f (d :: t) := by
          simp [TrimLeftFunc, List.dropWhile, hc]
        rw [e, ih h2, List.getLast?_cons_cons]
    · have e : TrimLeftFunc f (c :: t) = c :: t := by
        simp [TrimLeftFunc, List.dropWhile, hc]
      rw [e]

/-- After both dot trims, the text starts as it does after the left trim alone,
and ends as it does after the right trim alone. -/
theorem dot_trims_ends (w : List Char) :
    (TrimLeft (TrimRight w ['.']) ['.']).head? = (TrimLeft w ['.']).head? ∧
      (TrimLeft (TrimRight w ['.']) ['.']).getLast? = (TrimRight w ['.']).getLast? := by
  unfold TrimLeft TrimRight
  constructor
  · rw [TrimLeftFunc_TrimRightFunc_comm]
    exact head?_TrimRightFunc_of_noLeading _ _ (noLeading_TrimLeftFunc _ _)
  · exact getLast?_TrimLeftFunc_of_noTrailing _ _ (noTrailing_TrimRightFunc _ _)

theorem isDot_toLowerRune (U : UnicodeData) (hK : LowerKeepsClass U) (c : Char) :
    isDot (toLowerRune U c) = isDot c :=
  contains_dot_toLowerRune_all U hK c

/-! ## C17 -/

/-- C17, as the code has it: on every input, the result of `normalizeString`
neither starts nor ends with a dot; it starts with whitespace exactly when the
text left by `TrimSpace`, with its leading dots dropped, does (whitespace stands
directly after the leading dots), and it ends with whitespace exactly when that
text, with its trailing dots dropped, does (whitespace stands directly before the
trailing dots).  (Lower-casing a rune above U+007F gives no dot and gives
whitespace only from whitespace.) -/
theorem normalizeString_ends (U : UnicodeData) (hK : LowerKeepsClass U) (s : List Char) :
    (noLeading isDot (normalizeString U s) = true ∧
        noTrailing isDot (normalizeString U s) = true) ∧
      noLeading isSpace (normalizeString U s) =
        noLeading isSpace (TrimLeft (TrimSpace (stripMarks U s)) ['.']) ∧
      noTrailing isSpace (normalizeString U s) =
        noTrailing isSpace (TrimRight (TrimSpace (stripMarks U s)) ['.']) := by
  have e1 : normalizeString U s =
      (TrimLeft (TrimRight (TrimSpace (stripMarks U s)) ['.']) ['.']).map (toLowerRune U) := rfl
  obtain ⟨d1, d2⟩ := dots_trimmed (TrimSpace (stripMarks U s))
  have hd1 : noTrailing isDot (TrimLeft (TrimRight (TrimSpace (stripMarks U s)) ['.']) ['.']) =
      true := (TrimRightFunc_eq_self _ _).mp d1
  have hd2 : noLeading isDot (TrimLeft (TrimRight (TrimSpace (stripMarks U s)) ['.']) ['.']) =
      true := (TrimLeftFunc_eq_self _ _).mp d2
  obtain ⟨k1, k2⟩ := dot_trims_ends (TrimSpace (stripMarks U s))
  rw [e1,
    noLeading_map isDot _ _ (fun x _ => isDot_toLowerRune U hK x),
    noTrailing_map isDot _ _ (fun x _ => isDot_toLowerRune U hK x),
    noLeading_map isSpace _ _ (fun x _ => isSpace_toLowerRune_all U hK x),
    noTrailing_map isSpace _ _ (fun x _ => isSpace_toLowerRune_all U hK x)]
  refine ⟨⟨hd2, hd1⟩, ?_, ?_⟩
  · unfold noLeading
    rw [k1]
  · unfold noTrailing
    rw [k2]

/-- C17, as the code has it, at the two addresses with outer dots of
`TestNormalizeString`, whose results start and end with neither a dot nor
whitespace, and at ". a" and "a .", whose results keep the space. -/
theorem normalizeString_ends_witness :
    normalizeString latin1 "sylvester@gmail.com.".toList = "sylvester@gmail.com".toList ∧
      normalizeString latin1 ".dontstartwithdot@gmail.com".toList =
        "dontstartwithdot@gmail.com".toList ∧
      (noLeading isDot (normalizeString latin1 "sylvester@gmail.com.".toList) = true ∧
        noTrailing isDot (normalizeString latin1 "sylvester@gmail.com.".toList) = true) ∧
      noLeading isSpace (normalizeString latin1 "sylvester@gmail.com.".toList) = true ∧
      noTrailing isSpace (normalizeString latin1 "sylvester@gmail.com.".toList) = true ∧
      (noLeading isDot (normalizeString latin1 ".dontstartwithdot@gmail.com".toList) = true ∧
        noTrailing isDot (normalizeString latin1 ".dontstartwithdot@gmail.com".toList) = true) ∧
      noLeading isSpace (normalizeString latin1 ".dontstartwithdot@gmail.com".toList) = true ∧
      noTrailing isSpace (normalizeString latin1 ".dontstartwithdot@gmail.com".toList) = true ∧
      noLeading isSpace (normalizeString latin1 ". a".toList) = false ∧
      noTrailing isSpace (normalizeString latin1 "a .".toList) = false :=
  ⟨by decide, by decide,
   (normalizeString_ends latin1 lowerKeepsClass_latin1 "sylvester@gmail.com.".toList).1,
   (normalizeString_ends latin1 lowerKeepsClass_latin1 "sylvester@gmail.com.".toList).2.1.trans
    (by decide),
   (normalizeString_ends latin1 lowerKeepsClass_latin1 "sylvester@gmail.com.".toList).2.2.trans
    (by decide),
   (normalizeString_ends latin1 lowerKeepsClass_latin1 ".dontstartwithdot@gmail.com".toList).1,
   (normalizeString_ends latin1 lowerKeepsClass_latin1
    ".dontstartwithdot@gmail.com".toList).2.1.trans (by decide),
   (normalizeString_ends latin1 lowerKeepsClass_latin1
    ".dontstartwithdot@gmail.com".toList).2.2.trans (by decide),
   (normalizeString_ends latin1 lowerKeepsClass_latin1 ". a".toList).2.1.trans (by decide),
   (normalizeString_ends latin1 lowerKeepsClass_latin1 "a .".toList).2.2.trans (by decide)⟩

/-- C17 as stated fails: ". a" gives " a", which starts with a space, and "a ."
gives "a ", which ends with one. -/
theorem normalizeString_keeps_space :
    normalizeString latin1 ". a".toList = " a".toList ∧
      noLeading isSpace (normalizeString latin1 ". a".toList) = false ∧
      normalizeString latin1 "a .".toList = "a ".toList ∧
      noTrailing isSpace (normalizeString latin1 "a .".toList) = false := by
  decide

end Mailfix
